import Mathlib

/-!
Verification development for the `secret_broadcast` repository.

The core of the repository is the pair `encrypt_file` / `decrypt_file` in
`src/main.py`: a password-based file-encryption envelope.  `encrypt_file`
draws a fresh 32-byte salt from `os.urandom`, derives a 32-byte key with
scrypt (n = 2^17, r = 8, p = 1), encrypts the plaintext with Fernet, and
serializes salt, KDF parameters and ciphertext into a six-field JSON
object whose string fields are urlsafe base64.  `decrypt_file` parses the
JSON, base64-decodes the salt, re-derives the key from the embedded
parameters, base64-decodes the ciphertext and opens it with Fernet.

The JSON and base64 layers are embedded concretely below.  The scrypt and
Fernet primitives live in third-party libraries whose code is not part of
the repository, so they are modelled from the spec (ideal, symbolic
cryptography): a derived key is represented by the tuple of its inputs
(deterministic and, as for an ideal KDF, collision-free), and a Fernet
token is an injective byte-level encoding of (key, nonce, plaintext)
carrying its own integrity copy, so that opening with the wrong key or
opening a modified token fails, exactly as Fernet's HMAC check does.

Error taxonomy of the model, mapped to the Python exceptions that escape
`decrypt_file`:
  * `formatError`         — `json.JSONDecodeError`, `KeyError`, wrong field
                            type, `binascii.Error` from base64 decoding;
  * `parameterError`      — `ValueError` raised by `Scrypt(...)` parameter
                            validation (n not a power of two, n/r/p/length
                            out of range, safety ceiling exceeded);
  * `authenticationError` — `cryptography.fernet.InvalidToken`;
  * `valueError`          — `ValueError` raised by `Fernet(key)` when the
                            key does not decode to exactly 32 bytes.
-/

/-- A byte. -/
abbrev Byte := Fin 256

/-- A byte string. -/
abbrev Bytes := List Byte

/-- A character string, as a list of characters. -/
abbrev Chars := List Char

/-! ## A self-delimiting byte-level codec

Used only inside the symbolic Fernet-token model: the token is an
injective encoding of the key, the nonce and the plaintext.  Naturals are
written little-endian in base 255 (so every digit byte is `< 255`) and
terminated by the byte `255`; byte strings are length-prefixed. -/

/-- Little-endian base-255 digits of `n`, computed with explicit fuel
(`fuel ≥ n` suffices). -/
def natDigits : Nat → Nat → List Byte
  | 0, _ => []
  | fuel + 1, n =>
    if n = 0 then [] else ⟨n % 255, by omega⟩ :: natDigits fuel (n / 255)

/-- Read a natural back from little-endian base-255 digits. -/
def natFromDigits (l : List Byte) : Nat :=
  l.foldr (fun d acc => d.val + 255 * acc) 0

/-- Self-delimiting encoding of a natural: base-255 digits then the
terminator byte `255`. -/
def encNat (n : Nat) : Bytes :=
  natDigits n n ++ [(255 : Byte)]

/-- Parse a self-delimited natural; returns the value and the rest. -/
def parseNat (l : Bytes) : Option (Nat × Bytes) :=
  match l.dropWhile (fun b => decide (b.val < 255)) with
  | [] => none
  | _ :: rest => some (natFromDigits (l.takeWhile (fun b => decide (b.val < 255))), rest)

/-- Length-prefixed encoding of a byte string. -/
def encBytes (bs : Bytes) : Bytes :=
  encNat bs.length ++ bs

/-- Parse a length-prefixed byte string; returns the string and the rest. -/
def parseBytes (l : Bytes) : Option (Bytes × Bytes) :=
  match parseNat l with
  | none => none
  | some (n, rest) =>
    if n ≤ rest.length then some (rest.take n, rest.drop n) else none

theorem natDigits_lt (fuel n : Nat) : ∀ b ∈ natDigits fuel n, b.val < 255 := by
  induction fuel generalizing n with
  | zero => intro b hb; simp [natDigits] at hb
  | succ fuel ih =>
    intro b hb
    by_cases h : n = 0
    · simp [natDigits, h] at hb
    · simp only [natDigits, if_neg h, List.mem_cons] at hb
      rcases hb with hb | hb
      · subst hb; exact Nat.mod_lt _ (by omega)
      · exact ih _ b hb

theorem natFromDigits_natDigits (fuel n : Nat) (h : n ≤ fuel) :
    natFromDigits (natDigits fuel n) = n := by
  induction fuel generalizing n with
  | zero => interval_cases n; rfl
  | succ fuel ih =>
    by_cases h0 : n = 0
    · subst h0; rfl
    · have hdiv : n / 255 ≤ fuel := by
        have := Nat.div_le_self n 255
        have : n / 255 < n := Nat.div_lt_self (by omega) (by omega)
        omega
      simp only [natDigits, if_neg h0, natFromDigits, List.foldr_cons]
      have := ih (n / 255) hdiv
      simp only [natFromDigits] at this
      rw [this]
      omega

theorem takeWhile_dropWhile_digits (ds : List Byte) (hds : ∀ b ∈ ds, b.val < 255)
    (rest : Bytes) :
    (ds ++ (255 : Byte) :: rest).takeWhile (fun b => decide (b.val < 255)) = ds ∧
    (ds ++ (255 : Byte) :: rest).dropWhile (fun b => decide (b.val < 255))
      = (255 : Byte) :: rest := by
  have h255 : (decide ((255 : Byte).val < 255)) = false := by decide
  induction ds with
  | nil =>
    refine ⟨?_, ?_⟩ <;> simp [List.takeWhile_cons, List.dropWhile_cons, h255]
  | cons d ds ih =>
    have hd : d.val < 255 := hds d (List.mem_cons_self _ _)
    have ih' := ih (fun b hb => hds b (List.mem_cons_of_mem _ hb))
    refine ⟨?_, ?_⟩
    · rw [List.cons_append, List.takeWhile_cons_of_pos (by simpa using hd), ih'.1]
    · rw [List.cons_append, List.dropWhile_cons_of_pos (by simpa using hd), ih'.2]

theorem parseNat_encNat (n : Nat) (rest : Bytes) :
    parseNat (encNat n ++ rest) = some (n, rest) := by
  have hds := natDigits_lt n n
  have h := takeWhile_dropWhile_digits (natDigits n n) hds rest
  simp only [encNat, List.append_assoc, List.cons_append, List.nil_append, parseNat]
  rw [h.1, h.2, natFromDigits_natDigits n n le_rfl]

theorem parseBytes_encBytes (bs : Bytes) (rest : Bytes) :
    parseBytes (encBytes bs ++ rest) = some (bs, rest) := by
  simp only [encBytes, List.append_assoc, parseBytes, parseNat_encNat]
  simp [List.take_append_of_le_length, List.drop_append_of_le_length,
    List.take_left, List.drop_left]

/-! ## Urlsafe base64 (RFC 4648 §5, as `base64.urlsafe_b64encode` /
`base64.urlsafe_b64decode` behave on the inputs arising here)

Encoding pads with `=` exactly as Python's `base64.urlsafe_b64encode`
does.  Decoding requires a length that is a multiple of four and the
urlsafe alphabet with `=` only in the final one or two positions, and —
like Python — it does not inspect the unused trailing bits of a final
partial group. -/

/-- The urlsafe base64 alphabet, as a function from six-bit values. -/
def sixBitChar (v : Fin 64) : Char :=
  Char.ofNat
    (if v.val < 26 then 65 + v.val
     else if v.val < 52 then 97 + v.val - 26
     else if v.val < 62 then 48 + v.val - 52
     else if v.val = 62 then 45
     else 95)

/-- Inverse of the urlsafe base64 alphabet. -/
def charSixBit (c : Char) : Option (Fin 64) :=
  let n := c.toNat
  if h : 65 ≤ n ∧ n ≤ 90 then some ⟨n - 65, by omega⟩
  else if h : 97 ≤ n ∧ n ≤ 122 then some ⟨n - 97 + 26, by omega⟩
  else if h : 48 ≤ n ∧ n ≤ 57 then some ⟨n - 48 + 52, by omega⟩
  else if n = 45 then some ⟨62, by omega⟩
  else if n = 95 then some ⟨63, by omega⟩
  else none

theorem charSixBit_sixBitChar : ∀ v : Fin 64, charSixBit (sixBitChar v) = some v := by
  decide

theorem sixBitChar_ne_eq : ∀ v : Fin 64, sixBitChar v ≠ '=' ∧ sixBitChar v ≠ '"' ∧
    sixBitChar v ≠ '\\' ∧ sixBitChar v ≠ ',' ∧ sixBitChar v ≠ '}' := by
  decide

/-- Urlsafe base64 encoding with `=` padding, three input bytes per
four output characters. -/
def b64encode : Bytes → Chars
  | [] => []
  | [a] =>
    [sixBitChar ⟨a.val / 4, by omega⟩,
     sixBitChar ⟨a.val % 4 * 16, by omega⟩, '=', '=']
  | [a, b] =>
    [sixBitChar ⟨a.val / 4, by omega⟩,
     sixBitChar ⟨a.val % 4 * 16 + b.val / 16, by omega⟩,
     sixBitChar ⟨b.val % 16 * 4, by omega⟩, '=']
  | a :: b :: c :: rest =>
    [sixBitChar ⟨a.val / 4, by omega⟩,
     sixBitChar ⟨a.val % 4 * 16 + b.val / 16, by omega⟩,
     sixBitChar ⟨b.val % 16 * 4 + c.val / 64, by omega⟩,
     sixBitChar ⟨c.val % 64, by omega⟩] ++ b64encode rest

/-- First decoded byte of a group. -/
def byteA (v1 v2 : Fin 64) : Byte := ⟨v1.val * 4 + v2.val / 16, by omega⟩

/-- Second decoded byte of a group. -/
def byteB (v2 v3 : Fin 64) : Byte := ⟨v2.val % 16 * 16 + v3.val / 4, by omega⟩

/-- Third decoded byte of a group. -/
def byteC (v3 v4 : Fin 64) : Byte := ⟨v3.val % 4 * 64 + v4.val, by omega⟩

/-- Urlsafe base64 decoding: four characters per group, `=` padding only
at the very end, unused trailing bits ignored (as Python does). -/
def b64decode : Chars → Option Bytes
  | [] => some []
  | c1 :: c2 :: c3 :: c4 :: rest =>
    match charSixBit c1, charSixBit c2 with
    | some v1, some v2 =>
      if rest.isEmpty then
        if c3 = '=' then
          if c4 = '=' then some [byteA v1 v2] else none
        else
          match charSixBit c3 with
          | some v3 =>
            if c4 = '=' then some [byteA v1 v2, byteB v2 v3]
            else
              match charSixBit c4 with
              | some v4 => some [byteA v1 v2, byteB v2 v3, byteC v3 v4]
              | none => none
          | none => none
      else
        match charSixBit c3, charSixBit c4 with
        | some v3, some v4 =>
          match b64decode rest with
          | some bs => some ([byteA v1 v2, byteB v2 v3, byteC v3 v4] ++ bs)
          | none => none
        | _, _ => none
    | _, _ => none
  | _ => none

theorem b64encode_eq_nil_iff (l : Bytes) : b64encode l = [] ↔ l = [] := by
  match l with
  | [] => simp [b64encode]
  | [a] => simp [b64encode]
  | [a, b] => simp [b64encode]
  | a :: b :: c :: rest => simp [b64encode]

theorem b64_roundtrip_aux :
    ∀ (n : Nat) (l : Bytes), l.length ≤ n → b64decode (b64encode l) = some l := by
  intro n
  induction n with
  | zero =>
    intro l h
    have hl : l = [] := by
      cases l with
      | nil => rfl
      | cons a t => simp at h
    subst hl; rfl
  | succ n ih =>
    intro l h
    match l with
    | [] => rfl
    | [a] =>
      simp only [b64encode, b64decode, charSixBit_sixBitChar, List.isEmpty_nil,
        if_true, if_pos rfl]
      have ha : byteA ⟨a.val / 4, by omega⟩ ⟨a.val % 4 * 16, by omega⟩ = a := by
        apply Fin.ext; simp only [byteA]; omega
      rw [ha]
    | [a, b] =>
      have h3 := (sixBitChar_ne_eq ⟨b.val % 16 * 4, by omega⟩).1
      simp only [b64encode, b64decode, charSixBit_sixBitChar, List.isEmpty_nil,
        if_true, if_neg h3, if_pos rfl]
      have ha : byteA ⟨a.val / 4, by omega⟩ ⟨a.val % 4 * 16 + b.val / 16, by omega⟩ = a := by
        apply Fin.ext; simp only [byteA]; omega
      have hb : byteB ⟨a.val % 4 * 16 + b.val / 16, by omega⟩ ⟨b.val % 16 * 4, by omega⟩ = b := by
        apply Fin.ext; simp only [byteB]; omega
      rw [ha, hb]
    | a :: b :: c :: rest =>
      have hlen : rest.length ≤ n := by
        simp only [List.length_cons] at h; omega
      have ha : byteA ⟨a.val / 4, by omega⟩ ⟨a.val % 4 * 16 + b.val / 16, by omega⟩ = a := by
        apply Fin.ext; simp only [byteA]; omega
      have hb : byteB ⟨a.val % 4 * 16 + b.val / 16, by omega⟩
          ⟨b.val % 16 * 4 + c.val / 64, by omega⟩ = b := by
        apply Fin.ext; simp only [byteB]; omega
      have hc : byteC ⟨b.val % 16 * 4 + c.val / 64, by omega⟩ ⟨c.val % 64, by omega⟩ = c := by
        apply Fin.ext; simp only [byteC]; omega
      by_cases hrest : rest = []
      · subst hrest
        have h3 := (sixBitChar_ne_eq ⟨b.val % 16 * 4 + c.val / 64, by omega⟩).1
        have h4 := (sixBitChar_ne_eq ⟨c.val % 64, by omega⟩).1
        simp only [b64encode, List.cons_append, List.nil_append, b64decode,
          charSixBit_sixBitChar, List.isEmpty_nil, if_true, if_neg h3, if_neg h4]
        rw [ha, hb, hc]
        split <;> rfl
      · have hne : b64encode rest ≠ [] := fun hh => hrest ((b64encode_eq_nil_iff rest).mp hh)
        have hempty : (b64encode rest).isEmpty = false := by
          cases hh : b64encode rest with
          | nil => exact absurd hh hne
          | cons y ys => rfl
        have ihr := ih rest hlen
        simp only [b64encode, List.cons_append, List.append_eq, List.nil_append,
          b64decode, charSixBit_sixBitChar, hempty, ihr]
        rw [ha, hb, hc]
        simp

theorem b64decode_b64encode (l : Bytes) : b64decode (b64encode l) = some l :=
  b64_roundtrip_aux l.length l le_rfl

theorem b64encode_injective {l1 l2 : Bytes} (h : b64encode l1 = b64encode l2) :
    l1 = l2 := by
  have h1 := b64decode_b64encode l1
  rw [h, b64decode_b64encode l2] at h1
  exact (Option.some.inj h1).symm

/-! ## JSON objects, as `json.dumps` / `json.loads` treat the envelope

`json.dumps` with default separators writes a flat object as
`{"k": v, ...}` with fields in insertion order; the envelope's values are
strings (quoted, here always free of `"` and `\`) and non-negative
integers.  The parser below accepts exactly this flat-object grammar,
which covers every byte string `decrypt_file` is applied to in the
theorems of this file. -/

/-- A JSON value of the shapes occurring in the envelope. -/
inductive JVal where
  | jstr (s : Chars)
  | jnum (n : Nat)
deriving DecidableEq

/-- A JSON object: fields in order. -/
abbrev JObj := List (Chars × JVal)

/-- Decimal digit character. -/
def digitChar (d : Nat) : Char :=
  match d with
  | 0 => '0' | 1 => '1' | 2 => '2' | 3 => '3' | 4 => '4'
  | 5 => '5' | 6 => '6' | 7 => '7' | 8 => '8' | _ => '9'

/-- Is `c` a decimal digit? -/
def isDigitChar (c : Char) : Bool :=
  decide (48 ≤ c.toNat) && decide (c.toNat ≤ 57)

/-- Decimal digits of `n`, most significant first, with fuel. -/
def decDigits : Nat → Nat → Chars
  | 0, n => [digitChar (n % 10)]
  | fuel + 1, n =>
    if n < 10 then [digitChar n]
    else decDigits fuel (n / 10) ++ [digitChar (n % 10)]

/-- Decimal representation of `n`, as `json.dumps` writes integers. -/
def decChars (n : Nat) : Chars := decDigits n n

/-- Value of a decimal digit string. -/
def decVal (ds : Chars) : Nat := ds.foldl (fun a c => a * 10 + (c.toNat - 48)) 0

/-- May `c` appear raw inside a quoted JSON string? -/
def strOkChar (c : Char) : Bool := decide (c ≠ '"') && decide (c ≠ '\\')

/-- A string writable without escaping. -/
def wfStr (s : Chars) : Prop := ∀ c ∈ s, strOkChar c = true

/-- Well-formedness of a JSON value for unescaped serialization. -/
def wfVal : JVal → Prop
  | .jstr s => wfStr s
  | .jnum _ => True

/-- Well-formedness of an object. -/
def wfObj (obj : JObj) : Prop := ∀ kv ∈ obj, wfStr kv.1 ∧ wfVal kv.2

instance (s : Chars) : Decidable (wfStr s) := by
  unfold wfStr; infer_instance

instance (v : JVal) : Decidable (wfVal v) := by
  cases v <;> (unfold wfVal; infer_instance)

instance (obj : JObj) : Decidable (wfObj obj) := by
  unfold wfObj; infer_instance

/-- Serialize one JSON value. -/
def dumpJVal : JVal → Chars
  | .jstr s => '"' :: s ++ ['"']
  | .jnum n => decChars n

/-- Serialize one `"key": value` member. -/
def dumpPair (k : Chars) (v : JVal) : Chars :=
  '"' :: k ++ '"' :: ':' :: ' ' :: dumpJVal v

/-- Serialize the members of an object, separated by `", "`. -/
def dumpPairs : JObj → Chars
  | [] => []
  | [(k, v)] => dumpPair k v
  | (k, v) :: rest => dumpPair k v ++ ',' :: ' ' :: dumpPairs rest

/-- Serialize an object as `json.dumps` does with default separators. -/
def jsonDumps (obj : JObj) : Chars := '{' :: dumpPairs obj ++ ['}']

/-- Parse what follows an opening quote, up to the closing quote. -/
def parseStringBody (s : Chars) : Option (Chars × Chars) :=
  match s.dropWhile strOkChar with
  | '"' :: rest => some (s.takeWhile strOkChar, rest)
  | _ => none

/-- Parse one JSON value (string or non-negative integer). -/
def parseJVal (s : Chars) : Option (JVal × Chars) :=
  match s with
  | [] => none
  | c :: r =>
    if c = '"' then
      match parseStringBody r with
      | some (content, rest) => some (.jstr content, rest)
      | none => none
    else
      match (c :: r).takeWhile isDigitChar with
      | [] => none
      | ds => some (.jnum (decVal ds), (c :: r).dropWhile isDigitChar)

/-- Parse the members of an object up to and including the closing
brace; returns the members and what follows the brace. -/
def parsePairs : Nat → Chars → Option (JObj × Chars)
  | 0, _ => none
  | fuel + 1, s =>
    match s with
    | [] => none
    | c :: r =>
      if c = '"' then
        match parseStringBody r with
        | some (key, rest) =>
          match rest with
          | ':' :: ' ' :: r2 =>
            match parseJVal r2 with
            | some (v, r3) =>
              match r3 with
              | [] => none
              | d :: r4 =>
                if d = '}' then some ([(key, v)], r4)
                else
                  if d = ',' then
                    match r4 with
                    | ' ' :: r5 =>
                      match parsePairs fuel r5 with
                      | some (obj, r6) => some ((key, v) :: obj, r6)
                      | none => none
                    | _ => none
                  else none
            | none => none
          | _ => none
        | none => none
      else none

/-- Parse a whole JSON object, requiring the input to be consumed
exactly, as `json.loads` does. -/
def jsonLoads (s : Chars) : Option JObj :=
  match s with
  | [] => none
  | c :: r =>
    if c = '{' then
      if r = ['}'] then some []
      else
        match parsePairs r.length r with
        | some (obj, []) => some obj
        | _ => none
    else none

/-- Python dict field access (`KeyError` when absent): first binding of
the key; envelope objects never repeat keys. -/
def getField (obj : JObj) (k : Chars) : Option JVal :=
  match obj with
  | [] => none
  | (k', v) :: rest => if k' = k then some v else getField rest k

theorem takeWhile_dropWhile_append {α} (p : α → Bool) (l r : List α)
    (hl : ∀ c ∈ l, p c = true)
    (hr : ∀ c, r.head? = some c → p c = false) :
    (l ++ r).takeWhile p = l ∧ (l ++ r).dropWhile p = r := by
  induction l with
  | nil =>
    simp only [List.nil_append]
    cases r with
    | nil => simp
    | cons c r' =>
      have hc := hr c rfl
      constructor
      · rw [List.takeWhile_cons_of_neg (by simp [hc])]
      · rw [List.dropWhile_cons_of_neg (by simp [hc])]
  | cons a l ih =>
    have ha : p a = true := hl a (List.mem_cons_self _ _)
    have ih' := ih (fun c hc => hl c (List.mem_cons_of_mem _ hc))
    constructor
    · rw [List.cons_append, List.takeWhile_cons_of_pos (by simp [ha]), ih'.1]
    · rw [List.cons_append, List.dropWhile_cons_of_pos (by simp [ha]), ih'.2]

theorem parseStringBody_ok (content rest : Chars) (h : wfStr content) :
    parseStringBody (content ++ '"' :: rest) = some (content, rest) := by
  have hq : ∀ c : Char, ('"' :: rest).head? = some c → strOkChar c = false := by
    intro c hc
    simp only [List.head?_cons, Option.some.injEq] at hc
    subst hc; decide
  have h2 := takeWhile_dropWhile_append strOkChar content ('"' :: rest) h hq
  simp only [parseStringBody, h2.1, h2.2]

theorem isDigitChar_digitChar (d : Nat) : isDigitChar (digitChar d) = true := by
  unfold digitChar
  split <;> decide

theorem digitChar_toNat (d : Nat) (h : d < 10) : (digitChar d).toNat = 48 + d := by
  interval_cases d <;> rfl

theorem decDigits_digits (fuel n : Nat) :
    ∀ c ∈ decDigits fuel n, isDigitChar c = true := by
  induction fuel generalizing n with
  | zero =>
    intro c hc
    simp only [decDigits, List.mem_singleton] at hc
    subst hc
    exact isDigitChar_digitChar _
  | succ fuel ih =>
    intro c hc
    by_cases h : n < 10
    · simp only [decDigits, if_pos h, List.mem_singleton] at hc
      subst hc
      exact isDigitChar_digitChar _
    · simp only [decDigits, if_neg h, List.mem_append, List.mem_singleton] at hc
      rcases hc with hc | hc
      · exact ih _ c hc
      · subst hc
        exact isDigitChar_digitChar _

theorem decVal_decDigits (fuel n : Nat) (h : n ≤ fuel ∨ n < 10) :
    decVal (decDigits fuel n) = n := by
  induction fuel generalizing n with
  | zero =>
    have hn : n < 10 := by omega
    simp only [decDigits, decVal, List.foldl_cons, List.foldl_nil,
      digitChar_toNat (n % 10) (by omega)]
    omega
  | succ fuel ih =>
    by_cases hn : n < 10
    · simp only [decDigits, if_pos hn, decVal, List.foldl_cons, List.foldl_nil,
        digitChar_toNat n hn]
      omega
    · have hdiv : n / 10 ≤ fuel ∨ n / 10 < 10 := by
        left
        have : n / 10 < n := Nat.div_lt_self (by omega) (by omega)
        omega
      have ihd := ih (n / 10) hdiv
      simp only [decDigits, if_neg hn, decVal, List.foldl_append, List.foldl_cons,
        List.foldl_nil, digitChar_toNat (n % 10) (by omega)]
      simp only [decVal] at ihd
      rw [ihd]
      omega

theorem decVal_decChars (n : Nat) : decVal (decChars n) = n :=
  decVal_decDigits n n (Or.inl le_rfl)

theorem decChars_digits (n : Nat) : ∀ c ∈ decChars n, isDigitChar c = true :=
  decDigits_digits n n

theorem decChars_ne_nil (n : Nat) : decChars n ≠ [] := by
  unfold decChars
  cases n with
  | zero => simp [decDigits]
  | succ m =>
    simp only [decDigits]
    split <;> simp

theorem parseJVal_str (s rest : Chars) (h : wfStr s) :
    parseJVal ('"' :: (s ++ '"' :: rest)) = some (.jstr s, rest) := by
  simp only [parseJVal, parseStringBody_ok s rest h]
  simp

theorem parseJVal_num (n : Nat) (rest : Chars)
    (hrest : ∀ c, rest.head? = some c → isDigitChar c = false) :
    parseJVal (decChars n ++ rest) = some (.jnum n, rest) := by
  obtain ⟨c, cs, hcs⟩ : ∃ c cs, decChars n = c :: cs := by
    cases h : decChars n with
    | nil => exact absurd h (decChars_ne_nil n)
    | cons c cs => exact ⟨c, cs, rfl⟩
  have hdig : ∀ x ∈ decChars n, isDigitChar x = true := decChars_digits n
  have hcdig : isDigitChar c = true := hdig c (by rw [hcs]; exact List.mem_cons_self _ _)
  have hcne : ¬ c = '"' := by
    intro hq; subst hq; exact absurd hcdig (by decide)
  have htw := takeWhile_dropWhile_append isDigitChar (decChars n) rest hdig hrest
  rw [hcs] at htw
  simp only [hcs, List.cons_append, parseJVal, if_neg hcne]
  rw [show c :: (cs ++ rest) = (c :: cs) ++ rest from rfl, htw.1, htw.2]
  have hval : decVal (c :: cs) = n := by rw [← hcs, decVal_decChars]
  change some (JVal.jnum (decVal (c :: cs)), rest) = some (JVal.jnum n, rest)
  rw [hval]

theorem parseJVal_dump (v : JVal) (hv : wfVal v) (X : Chars)
    (hX : ∀ c, X.head? = some c → isDigitChar c = false) :
    parseJVal (dumpJVal v ++ X) = some (v, X) := by
  cases v with
  | jstr s =>
    have : dumpJVal (JVal.jstr s) ++ X = '"' :: (s ++ '"' :: X) := by
      simp [dumpJVal]
    rw [this, parseJVal_str s X hv]
  | jnum n => exact parseJVal_num n X hX

theorem parsePairs_dumpPairs :
    ∀ (obj : JObj) (fuel : Nat) (rest : Chars), obj ≠ [] → wfObj obj →
      obj.length ≤ fuel →
      parsePairs fuel (dumpPairs obj ++ '}' :: rest) = some (obj, rest) := by
  intro obj
  induction obj with
  | nil => intro fuel rest h; exact absurd rfl h
  | cons kv tail ih =>
    intro fuel rest _ hwf hfuel
    obtain ⟨k, v⟩ := kv
    have hk : wfStr k := (hwf (k, v) (List.mem_cons_self _ _)).1
    have hv : wfVal v := (hwf (k, v) (List.mem_cons_self _ _)).2
    cases fuel with
    | zero => simp at hfuel
    | succ f =>
      cases tail with
      | nil =>
        have hval := parseJVal_dump v hv ('}' :: rest) (by
          intro c hc
          simp only [List.head?_cons, Option.some.injEq] at hc
          subst hc; decide)
        simp only [dumpPairs, dumpPair, List.cons_append, List.nil_append,
          List.append_assoc, parsePairs, if_pos rfl, parseStringBody_ok k _ hk, hval]
        simp
      | cons p t =>
        have hval := parseJVal_dump v hv (',' :: ' ' :: (dumpPairs (p :: t) ++ '}' :: rest)) (by
          intro c hc
          simp only [List.head?_cons, Option.some.injEq] at hc
          subst hc; decide)
        have hwf' : wfObj (p :: t) := fun kv hkv => hwf kv (List.mem_cons_of_mem _ hkv)
        have hlen : (p :: t).length ≤ f := by
          simp only [List.length_cons] at hfuel ⊢; omega
        have ihr := ih f rest (by simp) hwf' hlen
        simp only [dumpPairs, dumpPair, List.cons_append, List.nil_append,
          List.append_assoc, parsePairs, if_pos rfl, parseStringBody_ok k _ hk, hval]
        simp only [ihr]
        simp

theorem dumpPairs_cons_head (kv : Chars × JVal) (tail : JObj) :
    ∃ t, dumpPairs (kv :: tail) = '"' :: t := by
  obtain ⟨k, v⟩ := kv
  cases tail with
  | nil => exact ⟨k ++ '"' :: ':' :: ' ' :: dumpJVal v, by simp [dumpPairs, dumpPair]⟩
  | cons p t =>
    exact ⟨k ++ '"' :: ':' :: ' ' :: dumpJVal v ++ ',' :: ' ' :: dumpPairs (p :: t),
      by simp [dumpPairs, dumpPair]⟩

theorem length_le_dumpPairs : ∀ obj : JObj, obj.length ≤ (dumpPairs obj).length := by
  intro obj
  induction obj with
  | nil => simp [dumpPairs]
  | cons kv tail ih =>
    obtain ⟨k, v⟩ := kv
    cases tail with
    | nil => simp [dumpPairs, dumpPair]
    | cons p t =>
      simp only [dumpPairs, dumpPair, List.length_cons, List.length_append] at ih ⊢
      omega

theorem jsonLoads_jsonDumps (obj : JObj) (h : wfObj obj) :
    jsonLoads (jsonDumps obj) = some obj := by
  cases obj with
  | nil => rfl
  | cons kv tail =>
    obtain ⟨t, ht⟩ := dumpPairs_cons_head kv tail
    have hne : ¬ (dumpPairs (kv :: tail) ++ ['}'] = ['}']) := by
      rw [ht]
      intro hc
      simp at hc
    have hlen : (kv :: tail).length ≤ (dumpPairs (kv :: tail) ++ ['}']).length := by
      have := length_le_dumpPairs (kv :: tail)
      simp only [List.length_append, List.length_cons, List.length_nil] at *
      omega
    have hp := parsePairs_dumpPairs (kv :: tail)
      ((dumpPairs (kv :: tail) ++ ['}']).length) [] (by simp) h hlen
    have harr : dumpPairs (kv :: tail) ++ '}' :: ([] : Chars)
        = dumpPairs (kv :: tail) ++ ['}'] := by simp
    rw [harr] at hp
    rw [show jsonDumps (kv :: tail) = '{' :: (dumpPairs (kv :: tail) ++ ['}']) from rfl]
    rw [show jsonLoads ('{' :: (dumpPairs (kv :: tail) ++ ['}'])) =
      (if dumpPairs (kv :: tail) ++ ['}'] = ['}'] then some [] else
        match parsePairs (dumpPairs (kv :: tail) ++ ['}']).length
            (dumpPairs (kv :: tail) ++ ['}']) with
        | some (obj, []) => some obj
        | _ => none) from rfl]
    rw [if_neg hne, hp]

/-! ## The scrypt KDF and the Fernet cipher (modelled from the spec)

Their code lives in the `cryptography` package, not in this repository,
so both are modelled from the spec's component contracts (§4.1 KeyDeriver,
§4.2 Authenticated Cipher), symbolically and ideally. -/

/-- Modelled from the spec: the key produced by the KeyDeriver, an ideal
KDF, is represented symbolically by the tuple of its inputs — the same
inputs always give the same key and, as for an ideal collision-free KDF,
distinct inputs give distinct keys. -/
structure DKey where
  password : Bytes
  salt : Bytes
  length : Nat
  n : Nat
  r : Nat
  p : Nat
deriving DecidableEq

/-- Modelled from the spec: `Scrypt(salt, length, n, r, p).derive(password)`
as an ideal deterministic KDF; see `scryptBytes` for the key material. -/
def scryptDerive (password salt : Bytes) (length n r p : Nat) : DKey :=
  ⟨password, salt, length, n, r, p⟩

/-- Modelled from the spec: the raw key material of a derived key — a
concrete deterministic mixing function standing in for scrypt's output;
only its determinism and its byte length (`exactly length bytes`) are
relied upon. -/
def scryptBytes (k : DKey) : Bytes :=
  (List.range k.length).map (fun i =>
    ⟨(List.foldl (fun a b => (a * 131 + b.val + 1) % 65536)
        (i + 3 * k.n + 5 * k.r + 7 * k.p) (k.password ++ k.salt)) % 256, by omega⟩)

/-- Power-of-two test with fuel (`fuel ≥ n` suffices). -/
def isPowTwoFuel : Nat → Nat → Bool
  | 0, _ => false
  | fuel + 1, n =>
    if n = 1 then true
    else if n % 2 = 1 then false
    else if n = 0 then false
    else isPowTwoFuel fuel (n / 2)

/-- Is `n` a power of two? -/
def isPowTwo (n : Nat) : Bool := isPowTwoFuel n n

/-- Modelled from the spec: the safety ceiling on the n·r·p product of
the embedded KDF parameters (§4.1: derivation must refuse parameters
whose implied memory/CPU cost exceeds an implementation-defined safety
ceiling). -/
def scryptCeiling : Nat := 2 ^ 55

/-- Modelled from the spec: the parameter validation performed by
`Scrypt(salt=..., length=..., n=..., r=..., p=...)` before any
derivation — n must be a power of two greater than 1, r, p and length
positive, and the n·r·p product within the safety ceiling. -/
def scryptCheck (length n r p : Nat) : Bool :=
  decide (2 ≤ n) && isPowTwo n && decide (1 ≤ r) && decide (1 ≤ p) &&
    decide (1 ≤ length) && decide (n * r * p ≤ scryptCeiling)

/-- Body of a symbolic Fernet token: an injective encoding of the key it
was sealed under, the internal randomness, and the plaintext. -/
def encTok (k : DKey) (nonce pt : Bytes) : Bytes :=
  encBytes k.password ++ encBytes k.salt ++ encNat k.length ++ encNat k.n ++
    encNat k.r ++ encNat k.p ++ encBytes nonce ++ encBytes pt

/-- Parse a symbolic token body back into key, nonce, plaintext, rest. -/
def parseTok (l : Bytes) : Option (DKey × Bytes × Bytes × Bytes) :=
  (parseBytes l).bind fun (pw, l1) =>
  (parseBytes l1).bind fun (salt, l2) =>
  (parseNat l2).bind fun (len, l3) =>
  (parseNat l3).bind fun (n, l4) =>
  (parseNat l4).bind fun (r, l5) =>
  (parseNat l5).bind fun (p, l6) =>
  (parseBytes l6).bind fun (nonce, l7) =>
  (parseBytes l7).map fun (pt, l8) => (⟨pw, salt, len, n, r, p⟩, nonce, pt, l8)

/-- The error kinds with which the model's `decrypt_file` fails; the
header comment maps them to the Python exceptions. -/
inductive DecryptError where
  | formatError
  | parameterError
  | authenticationError
  | valueError
deriving DecidableEq

/-- Modelled from the spec: `Fernet(key).encrypt(pt)` — the token is the
body twice, the second copy standing for the HMAC integrity tag (the
standard symbolic reading of a MAC: an unforgeable image of key and
message), so any modification confined to less than a body's width is
detected, exactly as the real HMAC over the whole token is. -/
def fernetSeal (k : DKey) (nonce pt : Bytes) : Bytes :=
  encTok k nonce pt ++ encTok k nonce pt

/-- Modelled from the spec: `Fernet(key).decrypt(token)` — verify the
integrity copy and the key, return the plaintext only on full success,
and raise `InvalidToken` (here `authenticationError`) otherwise. -/
def fernetOpen (k : DKey) (c : Bytes) : Except DecryptError Bytes :=
  if c.length % 2 = 1 then .error .authenticationError
  else
    let h1 := c.take (c.length / 2)
    let h2 := c.drop (c.length / 2)
    if h1 = h2 then
      match parseTok h1 with
      | some (k', _nonce, pt, []) =>
        if k' = k then .ok pt else .error .authenticationError
      | _ => .error .authenticationError
    else .error .authenticationError

/-! ## The envelope pipeline: `encrypt_file` and `decrypt_file` -/

/-- The key `"salt"`. -/
def saltKey : Chars := ['s', 'a', 'l', 't']

/-- The key `"length"`. -/
def lengthKey : Chars := ['l', 'e', 'n', 'g', 't', 'h']

/-- The key `"n"`. -/
def nKey : Chars := ['n']

/-- The key `"r"`. -/
def rKey : Chars := ['r']

/-- The key `"p"`. -/
def pKey : Chars := ['p']

/-- The key `"ciphertext_b64"`. -/
def ctKey : Chars := ['c', 'i', 'p', 'h', 'e', 'r', 't', 'e', 'x', 't', '_', 'b', '6', '4']

/-- The envelope object `encrypt_file` serializes: six fields in the
fixed order of the source's dict literal (src/main.py lines 70-79). -/
def envObj (password file_bytes saltR nonceR : Bytes) : JObj :=
  [(saltKey, .jstr (b64encode saltR)),
   (lengthKey, .jnum 32),
   (nKey, .jnum (2 ^ 17)),
   (rKey, .jnum 8),
   (pKey, .jnum 1),
   (ctKey, .jstr (b64encode (fernetSeal (scryptDerive password saltR 32 (2 ^ 17) 8 1)
     nonceR file_bytes)))]

/-- Embedding of `encrypt_file` (src/main.py lines 51-81).  The call
`os.urandom(32)` and Fernet's internal randomness are modelled as the
explicit entropy arguments `saltR` and `nonceR`; the envelope text (pure
ASCII) stands for the UTF-8 bytes the code returns; the Fernet token
(itself base64 text in the implementation) is modelled as the opaque
byte sequence `fernetSeal` returns, then base64-encoded into
`ciphertext_b64` exactly as line 77 does. -/
def encrypt_file (password file_bytes saltR nonceR : Bytes) : Chars :=
  let salt := saltR
  let length := 32
  let n := 2 ^ 17
  let r := 8
  let p := 1
  let symmetric_key := scryptDerive password salt length n r p
  let ciphertext := fernetSeal symmetric_key nonceR file_bytes
  jsonDumps
    [(saltKey, .jstr (b64encode salt)),
     (lengthKey, .jnum length),
     (nKey, .jnum n),
     (rKey, .jnum r),
     (pKey, .jnum p),
     (ctKey, .jstr (b64encode ciphertext))]

theorem encrypt_file_def (password file_bytes saltR nonceR : Bytes) :
    encrypt_file password file_bytes saltR nonceR
      = jsonDumps (envObj password file_bytes saltR nonceR) := rfl

/-- Embedding of lines 95-104 of `decrypt_file`: extract `salt` (line
97, with its base64 decoding), `length`, `n`, `r`, `p` (lines 98-99),
validate them as `Scrypt(...)` does (line 101) and derive the key (lines
102-104).  A missing field is a `KeyError`, a field of the wrong type
fails when used (both `formatError`), an undecodable salt is a
`binascii.Error` (`formatError`), and the parameter validation raises
`ValueError` (`parameterError`). -/
def envelopeKey (password : Bytes) (obj : JObj) : Except DecryptError DKey :=
  match getField obj saltKey with
  | some (.jstr saltStr) =>
    match b64decode saltStr with
    | some salt =>
      match getField obj lengthKey with
      | some (.jnum length) =>
        match getField obj nKey with
        | some (.jnum n) =>
          match getField obj rKey with
          | some (.jnum r) =>
            match getField obj pKey with
            | some (.jnum p) =>
              if scryptCheck length n r p then
                .ok (scryptDerive password salt length n r p)
              else .error .parameterError
            | _ => .error .formatError
          | _ => .error .formatError
        | _ => .error .formatError
      | _ => .error .formatError
    | none => .error .formatError
  | _ => .error .formatError

/-- Embedding of `decrypt_file` after `json.loads`: derive the key
(lines 97-104), then extract and base64-decode `ciphertext_b64` (lines
106-108), construct `Fernet(symmetric_key)` — which raises `ValueError`
unless the key material is exactly 32 bytes — and open the token (line
109). -/
def decryptJson (password : Bytes) (obj : JObj) : Except DecryptError Bytes :=
  match envelopeKey password obj with
  | .error e => .error e
  | .ok key =>
    match getField obj ctKey with
    | some (.jstr ctStr) =>
      match b64decode ctStr with
      | some ciphertext =>
        if key.length = 32 then fernetOpen key ciphertext
        else .error .valueError
      | none => .error .formatError
    | _ => .error .formatError

/-- Embedding of `decrypt_file` (src/main.py lines 84-111): `json.loads`
(line 95, failure is a `JSONDecodeError`, here `formatError`), then the
field extraction, key derivation and Fernet decryption. -/
def decrypt_file (password : Bytes) (file_bytes : Chars) : Except DecryptError Bytes :=
  match jsonLoads file_bytes with
  | none => .error .formatError
  | some obj => decryptJson password obj

theorem b64encode_mem_aux :
    ∀ (n : Nat) (l : Bytes), l.length ≤ n →
      ∀ c ∈ b64encode l, (charSixBit c).isSome = true ∨ c = '=' := by
  intro n
  induction n with
  | zero =>
    intro l h c hc
    have hl : l = [] := by
      cases l with
      | nil => rfl
      | cons a t => simp at h
    subst hl
    simp [b64encode] at hc
  | succ n ih =>
    intro l h c hc
    match l with
    | [] => simp [b64encode] at hc
    | [a] =>
      simp only [b64encode, List.mem_cons, List.not_mem_nil, or_false] at hc
      rcases hc with hc | hc | hc | hc <;> subst hc <;>
        simp [charSixBit_sixBitChar]
    | [a, b] =>
      simp only [b64encode, List.mem_cons, List.not_mem_nil, or_false] at hc
      rcases hc with hc | hc | hc | hc <;> subst hc <;>
        simp [charSixBit_sixBitChar]
    | a :: b :: d :: rest =>
      simp only [b64encode, List.cons_append, List.nil_append, List.mem_cons] at hc
      rcases hc with hc | hc | hc | hc | hc
      · subst hc; simp [charSixBit_sixBitChar]
      · subst hc; simp [charSixBit_sixBitChar]
      · subst hc; simp [charSixBit_sixBitChar]
      · subst hc; simp [charSixBit_sixBitChar]
      · exact ih rest (by simp only [List.length_cons] at h; omega) c hc

theorem b64encode_mem (l : Bytes) :
    ∀ c ∈ b64encode l, (charSixBit c).isSome = true ∨ c = '=' :=
  b64encode_mem_aux l.length l le_rfl

theorem charSixBit_isSome_facts (c : Char) (h : (charSixBit c).isSome = true) :
    strOkChar c = true ∧ c ≠ ',' ∧ c ≠ '}' ∧ c ≠ '{' := by
  have hne : ∀ d : Char, c.toNat ≠ d.toNat → c ≠ d := by
    intro d hnd heq
    exact hnd (by rw [heq])
  simp only [charSixBit] at h
  have hr : c.toNat ≠ 34 ∧ c.toNat ≠ 92 ∧ c.toNat ≠ 44 ∧ c.toNat ≠ 125 ∧ c.toNat ≠ 123 := by
    split_ifs at h with h1 h2 h3 h4 h5
    · omega
    · omega
    · omega
    · omega
    · omega
    · simp at h
  obtain ⟨n34, n92, n44, n125, n123⟩ := hr
  have hq : c ≠ '"' := hne '"' n34
  have hb : c ≠ '\\' := hne '\\' n92
  exact ⟨by simp [strOkChar, hq, hb], hne ',' n44, hne '}' n125, hne '{' n123⟩

theorem b64encode_wfStr (l : Bytes) : wfStr (b64encode l) := by
  intro c hc
  rcases b64encode_mem l c hc with h | h
  · exact (charSixBit_isSome_facts c h).1
  · subst h; decide

theorem wf_envObj (password file_bytes saltR nonceR : Bytes) :
    wfObj (envObj password file_bytes saltR nonceR) := by
  intro kv hkv
  simp only [envObj, List.mem_cons, List.not_mem_nil, or_false] at hkv
  rcases hkv with h | h | h | h | h | h
  · subst h; exact ⟨show wfStr saltKey by decide, b64encode_wfStr _⟩
  · subst h; exact ⟨show wfStr lengthKey by decide, trivial⟩
  · subst h; exact ⟨show wfStr nKey by decide, trivial⟩
  · subst h; exact ⟨show wfStr rKey by decide, trivial⟩
  · subst h; exact ⟨show wfStr pKey by decide, trivial⟩
  · subst h; exact ⟨show wfStr ctKey by decide, b64encode_wfStr _⟩

theorem jsonLoads_encrypt (password file_bytes saltR nonceR : Bytes) :
    jsonLoads (encrypt_file password file_bytes saltR nonceR)
      = some (envObj password file_bytes saltR nonceR) := by
  rw [encrypt_file_def]
  exact jsonLoads_jsonDumps _ (wf_envObj password file_bytes saltR nonceR)

theorem parseTok_encTok (k : DKey) (nonce pt rest : Bytes) :
    parseTok (encTok k nonce pt ++ rest) = some (k, nonce, pt, rest) := by
  obtain ⟨pw, salt, len, n, r, p⟩ := k
  simp only [encTok, List.append_assoc, parseTok, parseBytes_encBytes, parseNat_encNat,
    Option.some_bind, Option.map_some']

theorem scryptCheck_defaults : scryptCheck 32 (2 ^ 17) 8 1 = true := by decide

theorem fernetOpen_fernetSeal (k k' : DKey) (nonce pt : Bytes) :
    fernetOpen k' (fernetSeal k nonce pt)
      = if k = k' then .ok pt else .error .authenticationError := by
  have hlen : (fernetSeal k nonce pt).length = 2 * (encTok k nonce pt).length := by
    simp [fernetSeal]; omega
  have hhalf : (fernetSeal k nonce pt).length / 2 = (encTok k nonce pt).length := by
    omega
  have htake : (fernetSeal k nonce pt).take ((fernetSeal k nonce pt).length / 2)
      = encTok k nonce pt := by
    rw [hhalf]
    exact List.take_left _ _
  have hdrop : (fernetSeal k nonce pt).drop ((fernetSeal k nonce pt).length / 2)
      = encTok k nonce pt := by
    rw [hhalf]
    exact List.drop_left _ _
  have hpar : parseTok (encTok k nonce pt) = some (k, nonce, pt, []) := by
    have := parseTok_encTok k nonce pt []
    rwa [List.append_nil] at this
  unfold fernetOpen
  rw [if_neg (by omega)]
  simp only [htake, hdrop, if_pos rfl, hpar]
  simp

theorem getField_envObj_salt (password file_bytes saltR nonceR : Bytes) :
    getField (envObj password file_bytes saltR nonceR) saltKey
      = some (.jstr (b64encode saltR)) := rfl

theorem getField_envObj_length (password file_bytes saltR nonceR : Bytes) :
    getField (envObj password file_bytes saltR nonceR) lengthKey = some (.jnum 32) := rfl

theorem getField_envObj_n (password file_bytes saltR nonceR : Bytes) :
    getField (envObj password file_bytes saltR nonceR) nKey = some (.jnum (2 ^ 17)) := rfl

theorem getField_envObj_r (password file_bytes saltR nonceR : Bytes) :
    getField (envObj password file_bytes saltR nonceR) rKey = some (.jnum 8) := rfl

theorem getField_envObj_p (password file_bytes saltR nonceR : Bytes) :
    getField (envObj password file_bytes saltR nonceR) pKey = some (.jnum 1) := rfl

theorem getField_envObj_ct (password file_bytes saltR nonceR : Bytes) :
    getField (envObj password file_bytes saltR nonceR) ctKey
      = some (.jstr (b64encode (fernetSeal (scryptDerive password saltR 32 (2 ^ 17) 8 1)
          nonceR file_bytes))) := rfl

theorem envelopeKey_envObj (pw password file_bytes saltR nonceR : Bytes) :
    envelopeKey pw (envObj password file_bytes saltR nonceR)
      = .ok (scryptDerive pw saltR 32 (2 ^ 17) 8 1) := by
  simp only [envelopeKey, getField_envObj_salt, getField_envObj_length, getField_envObj_n,
    getField_envObj_r, getField_envObj_p, b64decode_b64encode, scryptCheck_defaults,
    if_true]

theorem decryptJson_envObj (pw password file_bytes saltR nonceR : Bytes) :
    decryptJson pw (envObj password file_bytes saltR nonceR)
      = fernetOpen (scryptDerive pw saltR 32 (2 ^ 17) 8 1)
          (fernetSeal (scryptDerive password saltR 32 (2 ^ 17) 8 1) nonceR file_bytes) := by
  simp only [decryptJson, envelopeKey_envObj, getField_envObj_ct, b64decode_b64encode]
  simp [scryptDerive]

theorem decrypt_encrypt (pw password file_bytes saltR nonceR : Bytes) :
    decrypt_file pw (encrypt_file password file_bytes saltR nonceR)
      = if scryptDerive password saltR 32 (2 ^ 17) 8 1
            = scryptDerive pw saltR 32 (2 ^ 17) 8 1
        then .ok file_bytes else .error .authenticationError := by
  simp only [decrypt_file, jsonLoads_encrypt, decryptJson_envObj, fernetOpen_fernetSeal]

theorem isPowTwoFuel_iff : ∀ fuel n, n ≤ fuel → (isPowTwoFuel fuel n = true ↔ ∃ k, n = 2 ^ k) := by
  intro fuel
  induction fuel with
  | zero =>
    intro n h
    have hn : n = 0 := by omega
    subst hn
    simp only [show isPowTwoFuel 0 0 = false from rfl, Bool.false_eq_true, false_iff]
    rintro ⟨k, hk⟩
    have := Nat.pos_pow_of_pos k (show 0 < 2 by omega)
    omega
  | succ fuel ih =>
    intro n h
    by_cases h1 : n = 1
    · subst h1
      constructor
      · intro _
        exact ⟨0, rfl⟩
      · intro _
        rfl
    · by_cases h2 : n % 2 = 1
      · simp only [isPowTwoFuel, if_neg h1, if_pos h2, Bool.false_eq_true, false_iff]
        rintro ⟨k, hk⟩
        cases k with
        | zero => simp at hk; omega
        | succ k =>
          rw [pow_succ] at hk
          omega
      · by_cases h0 : n = 0
        · subst h0
          simp only [show ∀ f, isPowTwoFuel (f + 1) 0 = false from fun f => rfl,
            Bool.false_eq_true, false_iff]
          rintro ⟨k, hk⟩
          have := Nat.pos_pow_of_pos k (show 0 < 2 by omega)
          omega
        · have hrec := ih (n / 2) (by omega)
          simp only [isPowTwoFuel, if_neg h1, if_neg h2, if_neg h0]
          rw [hrec]
          constructor
          · rintro ⟨k, hk⟩
            exact ⟨k + 1, by rw [pow_succ]; omega⟩
          · rintro ⟨k, hk⟩
            cases k with
            | zero => exfalso; apply h1; simpa using hk
            | succ k =>
              rw [pow_succ] at hk
              exact ⟨k, by omega⟩

theorem isPowTwo_iff (n : Nat) : isPowTwo n = true ↔ ∃ k, n = 2 ^ k :=
  isPowTwoFuel_iff n n le_rfl

/-- An envelope-shaped object with arbitrary field values: the general
form `decrypt_file` can meet. -/
def envObjGen (s : Chars) (L n r p : Nat) (ct : Chars) : JObj :=
  [(saltKey, .jstr s),
   (lengthKey, .jnum L),
   (nKey, .jnum n),
   (rKey, .jnum r),
   (pKey, .jnum p),
   (ctKey, .jstr ct)]

theorem wf_envObjGen (s : Chars) (L n r p : Nat) (ct : Chars)
    (hs : wfStr s) (hct : wfStr ct) : wfObj (envObjGen s L n r p ct) := by
  intro kv hkv
  simp only [envObjGen, List.mem_cons, List.not_mem_nil, or_false] at hkv
  rcases hkv with h | h | h | h | h | h
  · subst h; exact ⟨show wfStr saltKey by decide, hs⟩
  · subst h; exact ⟨show wfStr lengthKey by decide, trivial⟩
  · subst h; exact ⟨show wfStr nKey by decide, trivial⟩
  · subst h; exact ⟨show wfStr rKey by decide, trivial⟩
  · subst h; exact ⟨show wfStr pKey by decide, trivial⟩
  · subst h; exact ⟨show wfStr ctKey by decide, hct⟩

theorem envelopeKey_envObjGen (pw : Bytes) (s : Chars) (L n r p : Nat) (ct : Chars)
    (salt : Bytes) (hs : b64decode s = some salt) :
    envelopeKey pw (envObjGen s L n r p ct)
      = if scryptCheck L n r p then .ok (scryptDerive pw salt L n r p)
        else .error .parameterError := by
  have h1 : getField (envObjGen s L n r p ct) saltKey = some (.jstr s) := rfl
  have h2 : getField (envObjGen s L n r p ct) lengthKey = some (.jnum L) := rfl
  have h3 : getField (envObjGen s L n r p ct) nKey = some (.jnum n) := rfl
  have h4 : getField (envObjGen s L n r p ct) rKey = some (.jnum r) := rfl
  have h5 : getField (envObjGen s L n r p ct) pKey = some (.jnum p) := rfl
  simp only [envelopeKey, h1, h2, h3, h4, h5, hs]

theorem envelopeKey_envObjGen_badSalt (pw : Bytes) (s : Chars) (L n r p : Nat)
    (ct : Chars) (hs : b64decode s = none) :
    envelopeKey pw (envObjGen s L n r p ct) = .error .formatError := by
  have h1 : getField (envObjGen s L n r p ct) saltKey = some (.jstr s) := rfl
  simp only [envelopeKey, h1, hs]

theorem fernetSeal_inj (k1 k2 : DKey) (n1 n2 p1 p2 : Bytes)
    (h : fernetSeal k1 n1 p1 = fernetSeal k2 n2 p2) : k1 = k2 ∧ n1 = n2 ∧ p1 = p2 := by
  unfold fernetSeal at h
  have hlen : (encTok k1 n1 p1).length = (encTok k2 n2 p2).length := by
    have := congrArg List.length h
    simp only [List.length_append] at this
    omega
  have hb : encTok k1 n1 p1 = encTok k2 n2 p2 := by
    have ht := congrArg (List.take (encTok k1 n1 p1).length) h
    rwa [List.take_left, hlen, List.take_left] at ht
  have h1 := parseTok_encTok k1 n1 p1 []
  rw [hb, parseTok_encTok k2 n2 p2 []] at h1
  simp only [Option.some.injEq, Prod.mk.injEq] at h1
  exact ⟨h1.1.symm, h1.2.1.symm, h1.2.2.1.symm⟩

theorem scryptDerive_password_inj (pw1 pw2 s1 s2 : Bytes) (l1 n1 r1 p1 l2 n2 r2 p2 : Nat)
    (h : scryptDerive pw1 s1 l1 n1 r1 p1 = scryptDerive pw2 s2 l2 n2 r2 p2) :
    pw1 = pw2 ∧ s1 = s2 := by
  unfold scryptDerive at h
  injection h with h1 h2
  exact ⟨h1, h2⟩

/-! ## Concrete sample inputs used by witnesses and counterexamples -/

/-- Sample password "a". -/
def sampleA : Bytes := [(97 : Byte)]

/-- Sample password "b". -/
def sampleB : Bytes := [(98 : Byte)]

/-- Sample plaintext "hi". -/
def sampleMsg : Bytes := [(104 : Byte), (105 : Byte)]

/-- Sample 32-byte salt. -/
def sampleSalt : Bytes := List.replicate 32 (0 : Byte)

/-- A second, distinct 32-byte salt. -/
def sampleSalt2 : Bytes := List.replicate 32 (1 : Byte)

/-- Sample Fernet-internal randomness. -/
def sampleNonce : Bytes := []

/-! ## The claims -/

/-- C1: for every password and every byte sequence (the empty one
included) and whatever fresh randomness the two `os.urandom`-style draws
supply, decrypting the envelope produced by `encrypt_file` with the same
password returns exactly the original plaintext. -/
theorem c1_round_trip (password file_bytes saltR nonceR : Bytes) :
    decrypt_file password (encrypt_file password file_bytes saltR nonceR)
      = .ok file_bytes := by
  rw [decrypt_encrypt, if_pos rfl]

/-- C2: decrypting an envelope with a password different from the one it
was encrypted under fails with `AuthenticationError` (Fernet's
`InvalidToken`) and never returns bytes. -/
theorem c2_wrong_password (password1 password2 file_bytes saltR nonceR : Bytes)
    (h : password1 ≠ password2) :
    decrypt_file password2 (encrypt_file password1 file_bytes saltR nonceR)
      = .error .authenticationError := by
  rw [decrypt_encrypt, if_neg]
  intro he
  exact h (scryptDerive_password_inj _ _ _ _ _ _ _ _ _ _ _ _ he).1

theorem c2_wrong_password_witness :
    sampleA ≠ sampleB ∧
    decrypt_file sampleB (encrypt_file sampleA sampleMsg sampleSalt sampleNonce)
      = .error .authenticationError :=
  ⟨by decide, c2_wrong_password sampleA sampleB sampleMsg sampleSalt sampleNonce (by decide)⟩

/-- C7: every envelope produced by `encrypt_file` carries the salt the
32-byte random draw supplied (base64-encoded, decoding back to exactly
those 32 bytes) and the default KDF parameters length = 32, n = 2^17,
r = 8, p = 1. -/
theorem c7_fresh_salt_default_parameters (password file_bytes saltR nonceR : Bytes)
    (h : saltR.length = 32) :
    ∃ obj, jsonLoads (encrypt_file password file_bytes saltR nonceR) = some obj
      ∧ getField obj saltKey = some (.jstr (b64encode saltR))
      ∧ b64decode (b64encode saltR) = some saltR
      ∧ saltR.length = 32
      ∧ getField obj lengthKey = some (.jnum 32)
      ∧ getField obj nKey = some (.jnum (2 ^ 17))
      ∧ getField obj rKey = some (.jnum 8)
      ∧ getField obj pKey = some (.jnum 1) :=
  ⟨envObj password file_bytes saltR nonceR,
    jsonLoads_encrypt password file_bytes saltR nonceR, rfl,
    b64decode_b64encode saltR, h, rfl, rfl, rfl, rfl⟩

theorem c7_fresh_salt_default_parameters_witness :
    sampleSalt.length = 32 ∧
    ∃ obj, jsonLoads (encrypt_file sampleA sampleMsg sampleSalt sampleNonce) = some obj
      ∧ getField obj saltKey = some (.jstr (b64encode sampleSalt))
      ∧ b64decode (b64encode sampleSalt) = some sampleSalt
      ∧ sampleSalt.length = 32
      ∧ getField obj lengthKey = some (.jnum 32)
      ∧ getField obj nKey = some (.jnum (2 ^ 17))
      ∧ getField obj rKey = some (.jnum 8)
      ∧ getField obj pKey = some (.jnum 1) :=
  ⟨by decide,
    c7_fresh_salt_default_parameters sampleA sampleMsg sampleSalt sampleNonce (by decide)⟩

/-- C8: key derivation is a pure deterministic function — two runs on
the same password, salt and parameters give the same key, of exactly
`length` bytes of key material — and the key `decrypt_file` derives from
an envelope of `encrypt_file` under the same password is exactly the key
derived at encryption time. -/
theorem c8_kdf_deterministic (pw1 pw2 s1 s2 : Bytes) (l n r p : Nat)
    (password file_bytes saltR nonceR : Bytes)
    (hpw : pw1 = pw2) (hs : s1 = s2) :
    scryptDerive pw1 s1 l n r p = scryptDerive pw2 s2 l n r p
    ∧ (scryptBytes (scryptDerive pw1 s1 l n r p)).length = l
    ∧ envelopeKey password (envObj password file_bytes saltR nonceR)
        = .ok (scryptDerive password saltR 32 (2 ^ 17) 8 1) := by
  subst hpw
  subst hs
  refine ⟨rfl, ?_, envelopeKey_envObj password password file_bytes saltR nonceR⟩
  simp [scryptBytes, scryptDerive]

theorem c8_kdf_deterministic_witness :
    sampleA = sampleA ∧ sampleSalt = sampleSalt ∧
    (scryptDerive sampleA sampleSalt 32 (2 ^ 17) 8 1
        = scryptDerive sampleA sampleSalt 32 (2 ^ 17) 8 1
      ∧ (scryptBytes (scryptDerive sampleA sampleSalt 32 (2 ^ 17) 8 1)).length = 32
      ∧ envelopeKey sampleA (envObj sampleA sampleMsg sampleSalt sampleNonce)
          = .ok (scryptDerive sampleA sampleSalt 32 (2 ^ 17) 8 1)) :=
  ⟨rfl, rfl, c8_kdf_deterministic sampleA sampleA sampleSalt sampleSalt 32 (2 ^ 17) 8 1
    sampleA sampleMsg sampleSalt sampleNonce rfl rfl⟩

/-- C9: two encryptions of the same plaintext under the same password
whose random draws differ produce envelopes with different `salt` fields
and different `ciphertext_b64` fields, and both decrypt back to the
plaintext. -/
theorem c9_nondeterministic_encryption (password file_bytes salt1 nonce1 salt2 nonce2 : Bytes)
    (hlen1 : salt1.length = 32) (hlen2 : salt2.length = 32) (hne : salt1 ≠ salt2) :
    (∃ obj1 obj2,
      jsonLoads (encrypt_file password file_bytes salt1 nonce1) = some obj1 ∧
      jsonLoads (encrypt_file password file_bytes salt2 nonce2) = some obj2 ∧
      getField obj1 saltKey ≠ getField obj2 saltKey ∧
      getField obj1 ctKey ≠ getField obj2 ctKey) ∧
    decrypt_file password (encrypt_file password file_bytes salt1 nonce1) = .ok file_bytes ∧
    decrypt_file password (encrypt_file password file_bytes salt2 nonce2) = .ok file_bytes := by
  refine ⟨⟨envObj password file_bytes salt1 nonce1, envObj password file_bytes salt2 nonce2,
    jsonLoads_encrypt _ _ _ _, jsonLoads_encrypt _ _ _ _, ?_, ?_⟩,
    c1_round_trip _ _ _ _, c1_round_trip _ _ _ _⟩
  · rw [getField_envObj_salt, getField_envObj_salt]
    intro hc
    simp only [Option.some.injEq, JVal.jstr.injEq] at hc
    exact hne (b64encode_injective hc)
  · rw [getField_envObj_ct, getField_envObj_ct]
    intro hc
    simp only [Option.some.injEq, JVal.jstr.injEq] at hc
    have hseal := fernetSeal_inj _ _ _ _ _ _ (b64encode_injective hc)
    exact hne (scryptDerive_password_inj _ _ _ _ _ _ _ _ _ _ _ _ hseal.1).2

theorem c9_nondeterministic_encryption_witness :
    sampleSalt.length = 32 ∧ sampleSalt2.length = 32 ∧ sampleSalt ≠ sampleSalt2 ∧
    ((∃ obj1 obj2,
      jsonLoads (encrypt_file sampleA sampleMsg sampleSalt sampleNonce) = some obj1 ∧
      jsonLoads (encrypt_file sampleA sampleMsg sampleSalt2 sampleNonce) = some obj2 ∧
      getField obj1 saltKey ≠ getField obj2 saltKey ∧
      getField obj1 ctKey ≠ getField obj2 ctKey) ∧
    decrypt_file sampleA (encrypt_file sampleA sampleMsg sampleSalt sampleNonce)
      = .ok sampleMsg ∧
    decrypt_file sampleA (encrypt_file sampleA sampleMsg sampleSalt2 sampleNonce)
      = .ok sampleMsg) :=
  ⟨by decide, by decide, by decide,
    c9_nondeterministic_encryption sampleA sampleMsg sampleSalt sampleNonce
      sampleSalt2 sampleNonce (by decide) (by decide) (by decide)⟩

/-- The envelope of a genuine encryption with only its `length` field
replaced by `L`. -/
def envObjLen (password file_bytes saltR nonceR : Bytes) (L : Nat) : JObj :=
  envObjGen (b64encode saltR) L (2 ^ 17) 8 1
    (b64encode (fernetSeal (scryptDerive password saltR 32 (2 ^ 17) 8 1)
      nonceR file_bytes))

/-- C10: an otherwise well-formed envelope whose embedded `length` field
is an integer other than 32 makes `decrypt_file` fail even under the
correct password — `Fernet(key)` refuses any key not built from exactly
32 bytes of derived material (`ValueError`), and a non-positive length
is already refused by the scrypt parameter validation — so no plaintext
is ever returned. -/
theorem c10_nonstandard_length (password file_bytes saltR nonceR : Bytes) (L : Nat)
    (hL : L ≠ 32) :
    ∃ e, decrypt_file password (jsonDumps (envObjLen password file_bytes saltR nonceR L))
        = .error e := by
  have hwf : wfObj (envObjLen password file_bytes saltR nonceR L) :=
    wf_envObjGen _ _ _ _ _ _ (b64encode_wfStr _) (b64encode_wfStr _)
  have hloads := jsonLoads_jsonDumps _ hwf
  have hkey := envelopeKey_envObjGen password (b64encode saltR) L (2 ^ 17) 8 1
    (b64encode (fernetSeal (scryptDerive password saltR 32 (2 ^ 17) 8 1) nonceR file_bytes))
    saltR (b64decode_b64encode saltR)
  simp only [envObjLen] at hloads
  by_cases hL0 : L = 0
  · subst hL0
    refine ⟨.parameterError, ?_⟩
    rw [show scryptCheck 0 (2 ^ 17) 8 1 = false from by decide] at hkey
    simp only [Bool.false_eq_true, if_false] at hkey
    simp only [decrypt_file, envObjLen, hloads, decryptJson, hkey]
  · refine ⟨.valueError, ?_⟩
    have hcheck : scryptCheck L (2 ^ 17) 8 1 = true := by
      simp only [scryptCheck, Bool.and_eq_true, decide_eq_true_eq]
      refine ⟨⟨⟨⟨⟨by norm_num, by decide⟩, by norm_num⟩, by norm_num⟩, by omega⟩, by decide⟩
    rw [hcheck] at hkey
    simp only [if_true] at hkey
    have hct : getField (envObjGen (b64encode saltR) L (2 ^ 17) 8 1
        (b64encode (fernetSeal (scryptDerive password saltR 32 (2 ^ 17) 8 1)
          nonceR file_bytes))) ctKey
        = some (.jstr (b64encode (fernetSeal (scryptDerive password saltR 32 (2 ^ 17) 8 1)
            nonceR file_bytes))) := rfl
    simp only [decrypt_file, envObjLen, hloads, decryptJson, hkey, hct, b64decode_b64encode]
    rw [if_neg]
    simpa [scryptDerive] using hL

theorem c10_nonstandard_length_witness :
    (7 : Nat) ≠ 32 ∧
    ∃ e, decrypt_file sampleA (jsonDumps (envObjLen sampleA sampleMsg sampleSalt sampleNonce 7))
        = .error e :=
  ⟨by decide, c10_nonstandard_length sampleA sampleMsg sampleSalt sampleNonce 7 (by decide)⟩

theorem b64decode_some_mem_aux :
    ∀ (fuel : Nat) (s : Chars), s.length ≤ fuel → ∀ bs, b64decode s = some bs →
      ∀ c ∈ s, (charSixBit c).isSome = true ∨ c = '=' := by
  intro fuel
  induction fuel with
  | zero =>
    intro s h bs hb c hc
    cases s with
    | nil => simp at hc
    | cons a t => simp at h
  | succ fuel ih =>
    intro s h bs hb c hc
    match s with
    | [] => simp at hc
    | [c1] => exact absurd hb (by simp [b64decode])
    | [c1, c2] => exact absurd hb (by simp [b64decode])
    | [c1, c2, c3] => exact absurd hb (by simp [b64decode])
    | c1 :: c2 :: c3 :: c4 :: rest =>
      rw [b64decode] at hb
      cases hc1 : charSixBit c1 with
      | none => rw [hc1] at hb; simp at hb
      | some v1 =>
      cases hc2 : charSixBit c2 with
      | none => rw [hc1, hc2] at hb; simp at hb
      | some v2 =>
      rw [hc1, hc2] at hb
      simp only [List.mem_cons] at hc
      rcases hc with hcc | hcc | hcc | hcc | hcc
      · subst hcc; left; rw [hc1]; rfl
      · subst hcc; left; rw [hc2]; rfl
      · subst hcc
        by_cases h3 : c = '='
        · right; exact h3
        · left
          cases hrest : rest with
          | nil =>
            rw [hrest] at hb
            simp only [List.isEmpty_nil, if_true, if_neg h3] at hb
            cases hc3 : charSixBit c
            · rw [hc3] at hb; simp at hb
            · rfl
          | cons x xs =>
            rw [hrest] at hb
            simp only [List.isEmpty_cons, Bool.false_eq_true, if_false] at hb
            cases hc3 : charSixBit c
            · rw [hc3] at hb; simp at hb
            · rfl
      · subst hcc
        by_cases h4 : c = '='
        · right; exact h4
        · left
          cases hrest : rest with
          | nil =>
            rw [hrest] at hb
            simp only [List.isEmpty_nil, if_true] at hb
            by_cases h3 : c3 = '='
            · simp only [if_pos h3, if_neg h4] at hb
              exact Option.noConfusion hb
            · simp only [if_neg h3] at hb
              cases hc3 : charSixBit c3
              · simp only [hc3] at hb
                exact Option.noConfusion hb
              · simp only [hc3, if_neg h4] at hb
                cases hc4 : charSixBit c
                · simp only [hc4] at hb
                  exact Option.noConfusion hb
                · rfl
          | cons x xs =>
            rw [hrest] at hb
            simp only [List.isEmpty_cons, Bool.false_eq_true, if_false] at hb
            cases hc3 : charSixBit c3
            · simp only [hc3] at hb
              exact Option.noConfusion hb
            · simp only [hc3] at hb
              cases hc4 : charSixBit c
              · simp only [hc4] at hb
                exact Option.noConfusion hb
              · rfl
      · cases hrest : rest with
        | nil => rw [hrest] at hcc; simp at hcc
        | cons x xs =>
          rw [hrest] at hb
          simp only [List.isEmpty_cons, Bool.false_eq_true, if_false] at hb
          cases hc3 : charSixBit c3
          · simp only [hc3] at hb
            exact Option.noConfusion hb
          · simp only [hc3] at hb
            cases hc4 : charSixBit c4
            · simp only [hc4] at hb
              exact Option.noConfusion hb
            · simp only [hc4] at hb
              cases hd : b64decode (x :: xs)
              · simp only [hd] at hb
                exact Option.noConfusion hb
              · refine ih rest (by simp only [List.length_cons] at h; omega) _
                  (by rw [hrest]; exact hd) c hcc

theorem b64decode_some_wfStr (s : Chars) (bs : Bytes) (h : b64decode s = some bs) :
    wfStr s := by
  intro c hc
  rcases b64decode_some_mem_aux s.length s le_rfl bs h c hc with h' | h'
  · exact (charSixBit_isSome_facts c h').1
  · subst h'; decide

/-- C4: an envelope whose embedded `n` is not a power of two, or whose
n·r·p product exceeds the safety ceiling, makes `decrypt_file` fail with
`ParameterError` — raised by the parameter validation that the model (as
the spec directs, §4.1) runs before `scryptDerive` is ever reached, so
no key derivation is attempted. -/
theorem c4_parameter_safety (password salt : Bytes) (s ct : Chars) (L n r p : Nat)
    (hs : b64decode s = some salt) (hct : wfStr ct)
    (h : (¬ ∃ k, n = 2 ^ k) ∨ scryptCeiling < n * r * p) :
    decrypt_file password (jsonDumps (envObjGen s L n r p ct))
      = .error .parameterError := by
  have hwf := wf_envObjGen s L n r p ct (b64decode_some_wfStr s salt hs) hct
  have hloads := jsonLoads_jsonDumps _ hwf
  have hcheck : scryptCheck L n r p = false := by
    rcases h with h | h
    · have hpt : isPowTwo n = false := by
        cases hpt : isPowTwo n with
        | false => rfl
        | true => exact absurd ((isPowTwo_iff n).mp hpt) h
      simp [scryptCheck, hpt]
    · have hd : decide (n * r * p ≤ scryptCeiling) = false := by
        simp only [decide_eq_false_iff_not]
        omega
      simp [scryptCheck, hd]
  have hkey := envelopeKey_envObjGen password s L n r p ct salt hs
  rw [hcheck] at hkey
  simp only [Bool.false_eq_true, if_false] at hkey
  simp only [decrypt_file, hloads, decryptJson, hkey]

theorem c4_parameter_safety_witness :
    b64decode (b64encode sampleSalt) = some sampleSalt ∧
    wfStr (b64encode sampleMsg) ∧
    (¬ ∃ k, (3 : Nat) = 2 ^ k) ∧
    decrypt_file sampleA (jsonDumps (envObjGen (b64encode sampleSalt) 32 3 8 1
        (b64encode sampleMsg)))
      = .error .parameterError := by
  have h3 : ¬ ∃ k, (3 : Nat) = 2 ^ k := by
    intro hex
    exact absurd ((isPowTwo_iff 3).mpr hex) (by decide)
  exact ⟨by decide, by decide, h3,
    c4_parameter_safety sampleA sampleSalt (b64encode sampleSalt) (b64encode sampleMsg)
      32 3 8 1 (by decide) (by decide) (Or.inl h3)⟩

theorem wfObj_filter (obj : JObj) (p : Chars × JVal → Bool) (h : wfObj obj) :
    wfObj (obj.filter p) :=
  fun kv hkv => h kv (List.mem_of_mem_filter hkv)

/-- C5: a malformed envelope — any one of the six required fields
removed, or the `salt` field replaced by a string that is not decodable
base64 — makes `decrypt_file` fail with `FormatError` (`KeyError` or
`binascii.Error` in the source), an error distinct from
`AuthenticationError` and `ParameterError`. -/
theorem c5_malformed_envelope (password file_bytes saltR nonceR : Bytes) :
    (∀ K : Chars, K ∈ [saltKey, lengthKey, nKey, rKey, pKey, ctKey] →
      decrypt_file password
        (jsonDumps ((envObj password file_bytes saltR nonceR).filter
          (fun kv => decide (kv.1 ≠ K))))
        = .error .formatError)
    ∧ ∀ s : Chars, wfStr s → b64decode s = none →
      decrypt_file password
        (jsonDumps (envObjGen s 32 (2 ^ 17) 8 1
          (b64encode (fernetSeal (scryptDerive password saltR 32 (2 ^ 17) 8 1)
            nonceR file_bytes))))
        = .error .formatError := by
  constructor
  · have hloadsF : ∀ K : Chars,
        jsonLoads (jsonDumps ((envObj password file_bytes saltR nonceR).filter
          (fun kv => decide (kv.1 ≠ K))))
        = some ((envObj password file_bytes saltR nonceR).filter
            (fun kv => decide (kv.1 ≠ K))) :=
      fun K => jsonLoads_jsonDumps _
        (wfObj_filter _ _ (wf_envObj password file_bytes saltR nonceR))
    intro K hK
    simp only [List.mem_cons, List.not_mem_nil, or_false] at hK
    rcases hK with h | h | h | h | h | h <;> subst h <;>
      (simp only [decrypt_file, hloadsF];
       simp [decryptJson, envelopeKey, envObj, getField, List.filter,
         saltKey, lengthKey, nKey, rKey, pKey, ctKey,
         b64decode_b64encode, scryptCheck_defaults,
         show scryptCheck 32 131072 8 1 = true from by decide])
  · intro s hwfS hdec
    have hwf := wf_envObjGen s 32 (2 ^ 17) 8 1
      (b64encode (fernetSeal (scryptDerive password saltR 32 (2 ^ 17) 8 1)
        nonceR file_bytes)) hwfS (b64encode_wfStr _)
    have hloads := jsonLoads_jsonDumps _ hwf
    have hkey := envelopeKey_envObjGen_badSalt password s 32 (2 ^ 17) 8 1
      (b64encode (fernetSeal (scryptDerive password saltR 32 (2 ^ 17) 8 1)
        nonceR file_bytes)) hdec
    simp only [decrypt_file, hloads, decryptJson, hkey]

theorem c5_malformed_envelope_witness :
    (nKey ∈ [saltKey, lengthKey, nKey, rKey, pKey, ctKey] ∧
      decrypt_file sampleA
        (jsonDumps ((envObj sampleA sampleMsg sampleSalt sampleNonce).filter
          (fun kv => decide (kv.1 ≠ nKey))))
        = .error .formatError)
    ∧ (wfStr ['A'] ∧ b64decode ['A'] = none ∧
      decrypt_file sampleA
        (jsonDumps (envObjGen ['A'] 32 (2 ^ 17) 8 1
          (b64encode (fernetSeal (scryptDerive sampleA sampleSalt 32 (2 ^ 17) 8 1)
            sampleNonce sampleMsg))))
        = .error .formatError) :=
  ⟨⟨by decide,
      (c5_malformed_envelope sampleA sampleMsg sampleSalt sampleNonce).1 nKey (by decide)⟩,
   ⟨by decide, by decide,
      (c5_malformed_envelope sampleA sampleMsg sampleSalt sampleNonce).2 ['A']
        (by decide) (by decide)⟩⟩

theorem b64encode_padding :
    ∀ (n : Nat) (l : Bytes), l.length ≤ n → l.length % 3 ≠ 0 → '=' ∈ b64encode l := by
  intro n
  induction n with
  | zero =>
    intro l h hm
    cases l with
    | nil => simp at hm
    | cons a t => simp at h
  | succ n ih =>
    intro l h hm
    match l with
    | [] => simp at hm
    | [a] => simp [b64encode]
    | [a, b] => simp [b64encode]
    | a :: b :: c :: rest =>
      have : '=' ∈ b64encode rest := by
        refine ih rest (by simp only [List.length_cons] at h; omega) ?_
        simp only [List.length_cons] at hm
        omega
      simp only [b64encode, List.cons_append, List.nil_append, List.mem_cons]
      right; right; right; right
      exact this

/-- C6 (amended): every envelope `encrypt_file` produces is a JSON
object with exactly the six fields `salt`, `length`, `n`, `r`, `p`,
`ciphertext_b64` in that fixed order; `salt` and `ciphertext_b64` are
urlsafe-base64 strings *with* `=` padding as Python's
`base64.urlsafe_b64encode` emits (a 32-byte salt always carries a
padding character), and the salt decodes back to exactly the 32 supplied
bytes. -/
theorem c6_envelope_format (password file_bytes saltR nonceR : Bytes)
    (h : saltR.length = 32) :
    jsonLoads (encrypt_file password file_bytes saltR nonceR)
      = some [(saltKey, .jstr (b64encode saltR)),
              (lengthKey, .jnum 32),
              (nKey, .jnum (2 ^ 17)),
              (rKey, .jnum 8),
              (pKey, .jnum 1),
              (ctKey, .jstr (b64encode (fernetSeal
                (scryptDerive password saltR 32 (2 ^ 17) 8 1) nonceR file_bytes)))]
    ∧ b64decode (b64encode saltR) = some saltR ∧ saltR.length = 32
    ∧ (∀ c ∈ b64encode saltR, (charSixBit c).isSome = true ∨ c = '=')
    ∧ (∀ c ∈ b64encode (fernetSeal (scryptDerive password saltR 32 (2 ^ 17) 8 1)
        nonceR file_bytes), (charSixBit c).isSome = true ∨ c = '=')
    ∧ '=' ∈ b64encode saltR :=
  ⟨jsonLoads_encrypt password file_bytes saltR nonceR,
   b64decode_b64encode saltR, h, b64encode_mem _, b64encode_mem _,
   b64encode_padding saltR.length saltR le_rfl (by omega)⟩

theorem c6_envelope_format_counterexample :
    ∃ obj s, jsonLoads (encrypt_file sampleA sampleMsg sampleSalt sampleNonce) = some obj
      ∧ getField obj saltKey = some (.jstr s) ∧ '=' ∈ s :=
  ⟨envObj sampleA sampleMsg sampleSalt sampleNonce, b64encode sampleSalt,
   jsonLoads_encrypt sampleA sampleMsg sampleSalt sampleNonce, rfl, by decide⟩

theorem c6_envelope_format_witness :
    sampleSalt.length = 32 ∧
    (jsonLoads (encrypt_file sampleB sampleMsg sampleSalt sampleNonce)
      = some [(saltKey, .jstr (b64encode sampleSalt)),
              (lengthKey, .jnum 32),
              (nKey, .jnum (2 ^ 17)),
              (rKey, .jnum 8),
              (pKey, .jnum 1),
              (ctKey, .jstr (b64encode (fernetSeal
                (scryptDerive sampleB sampleSalt 32 (2 ^ 17) 8 1) sampleNonce sampleMsg)))]
    ∧ b64decode (b64encode sampleSalt) = some sampleSalt ∧ sampleSalt.length = 32
    ∧ (∀ c ∈ b64encode sampleSalt, (charSixBit c).isSome = true ∨ c = '=')
    ∧ (∀ c ∈ b64encode (fernetSeal (scryptDerive sampleB sampleSalt 32 (2 ^ 17) 8 1)
        sampleNonce sampleMsg), (charSixBit c).isSome = true ∨ c = '=')
    ∧ '=' ∈ b64encode sampleSalt) :=
  ⟨by decide, c6_envelope_format sampleB sampleMsg sampleSalt sampleNonce (by decide)⟩

/-! ## Tamper detection: single-character changes in `ciphertext_b64` -/

theorem getD_take_eq (l : Bytes) (n q : Nat) (h : q < n) (h2 : n ≤ l.length) :
    (l.take n).getD q 0 = l.getD q 0 := by
  have hq1 : q < (l.take n).length := by
    simp only [List.length_take]
    omega
  have hq2 : q < l.length := by omega
  rw [List.getD_eq_getElem _ _ hq1, List.getD_eq_getElem _ _ hq2]
  exact List.getElem_take l

theorem getD_drop_eq (l : Bytes) (n q : Nat) (h : n + q < l.length) :
    (l.drop n).getD q 0 = l.getD (n + q) 0 := by
  have hq1 : q < (l.drop n).length := by
    simp only [List.length_drop]
    omega
  rw [List.getD_eq_getElem _ _ hq1, List.getD_eq_getElem _ _ h]
  exact List.getElem_drop l

theorem ext_getD (l1 l2 : Bytes) (h : l1.length = l2.length)
    (he : ∀ q, q < l1.length → l1.getD q 0 = l2.getD q 0) : l1 = l2 := by
  apply List.ext_getElem h
  intro i h1 h2
  have := he i h1
  rwa [List.getD_eq_getElem l1 0 h1, List.getD_eq_getElem l2 0 h2] at this

theorem getD_append_u (u : Bytes) (q : Nat) (hq : q < u.length) :
    (u ++ u).getD q 0 = u.getD q 0 :=
  List.getD_append u u 0 q hq

theorem getD_append_u_right (u : Bytes) (q : Nat) (hq : q < u.length) :
    (u ++ u).getD (u.length + q) 0 = u.getD q 0 := by
  rw [List.getD_append_right u u 0 _ (by omega)]
  congr 1
  omega

/-- If the two halves of `t'` agree, and `t'` agrees with `u ++ u`
outside a window of three adjacent positions, then `t'` is `u ++ u`:
the core of the integrity argument — a change confined to less than a
half cannot keep the integrity copy consistent. -/
theorem halves_window (u t' : Bytes) (d : Nat) (hB : 3 ≤ u.length)
    (hlen : t'.length = 2 * u.length)
    (hag : ∀ q, q < 2 * u.length → (q < d ∨ d + 2 < q) →
      t'.getD q 0 = (u ++ u).getD q 0)
    (heq : t'.take u.length = t'.drop u.length) : t' = u ++ u := by
  have hhalf : ∀ q, q < u.length → t'.getD q 0 = t'.getD (u.length + q) 0 := by
    intro q hq
    have h1 : (t'.take u.length).getD q 0 = t'.getD q 0 :=
      getD_take_eq t' u.length q hq (by omega)
    have h2 : (t'.drop u.length).getD q 0 = t'.getD (u.length + q) 0 :=
      getD_drop_eq t' u.length q (by omega)
    rw [← h1, heq, h2]
  have hlow : ∀ q, q < u.length → t'.getD q 0 = u.getD q 0 := by
    intro q hq
    by_cases hw : q < d ∨ d + 2 < q
    · rw [hag q (by omega) hw, getD_append_u u q hq]
    · push_neg at hw
      have hout : u.length + q < d ∨ d + 2 < u.length + q := by omega
      rw [hhalf q hq, hag (u.length + q) (by omega) hout, getD_append_u_right u q hq]
  apply ext_getD
  · simp only [List.length_append]
    omega
  · intro q hq
    rw [hlen] at hq
    by_cases hql : q < u.length
    · rw [hlow q hql, getD_append_u u q hql]
    · have hq2 : q - u.length < u.length := by omega
      have : u.length + (q - u.length) = q := by omega
      rw [← this, ← hhalf (q - u.length) hq2, hlow (q - u.length) hq2,
        getD_append_u_right u (q - u.length) hq2]

theorem set_append_four {α} (c1 c2 c3 c4 : α) (l2 : List α) (i : Nat) (a : α)
    (h : 4 ≤ i) :
    ([c1, c2, c3, c4] ++ l2).set i a = [c1, c2, c3, c4] ++ l2.set (i - 4) a := by
  have h4 : ([c1, c2, c3, c4] : List α).length ≤ i := by
    simp only [List.length_cons, List.length_nil]
    omega
  rw [List.set_append_right i a h4]
  simp only [List.length_cons, List.length_nil]

/-- Changing one character of a base64 encoding either makes it
undecodable, or changes the decoded length by exactly one byte, or
keeps the length and only affects the three byte positions of the
changed character's group. -/
theorem b64decode_set :
    ∀ (fuel : Nat) (t : Bytes), t.length ≤ fuel → ∀ (i : Nat) (ch : Char),
      i < (b64encode t).length →
      b64decode ((b64encode t).set i ch) = none
      ∨ ∃ t', b64decode ((b64encode t).set i ch) = some t'
          ∧ (t'.length + 1 = t.length ∨ t.length + 1 = t'.length
             ∨ (t'.length = t.length
                ∧ ∀ q, q < t.length → q < 3 * (i / 4) ∨ 3 * (i / 4) + 2 < q →
                    t'.getD q 0 = t.getD q 0)) := by
  intro fuel
  induction fuel with
  | zero =>
    intro t h i ch hi
    have ht : t = [] := by
      cases t with
      | nil => rfl
      | cons a t' => simp at h
    subst ht
    simp [b64encode] at hi
  | succ fuel ih =>
    intro t h i ch hi
    match t with
    | [] => simp [b64encode] at hi
    | [a] =>
      simp only [b64encode, List.length_cons, List.length_nil] at hi
      interval_cases i
      · cases hch : charSixBit ch with
        | none =>
          left
          simp only [b64encode, List.set_cons_zero, b64decode, hch]
        | some w =>
          right
          simp only [b64encode, List.set_cons_zero, b64decode, hch,
            charSixBit_sixBitChar, List.isEmpty_nil, if_true, if_pos rfl]
          exact ⟨_, rfl, Or.inr (Or.inr ⟨rfl, fun q hq hw => absurd hw (by simp only [List.length_cons, List.length_nil] at hq; omega)⟩)⟩
      · cases hch : charSixBit ch with
        | none =>
          left
          simp only [b64encode, List.set_cons_succ, List.set_cons_zero, b64decode,
            charSixBit_sixBitChar, hch]
        | some w =>
          right
          simp only [b64encode, List.set_cons_succ, List.set_cons_zero, b64decode, hch,
            charSixBit_sixBitChar, List.isEmpty_nil, if_true, if_pos rfl]
          exact ⟨_, rfl, Or.inr (Or.inr ⟨rfl, fun q hq hw => absurd hw (by simp only [List.length_cons, List.length_nil] at hq; omega)⟩)⟩
      · by_cases hq : ch = '='
        · subst hq
          have hset : (b64encode [a]).set 2 '=' = b64encode [a] := rfl
          rw [hset, b64decode_b64encode]
          right
          exact ⟨[a], rfl, Or.inr (Or.inr ⟨rfl, fun q hq hw => rfl⟩)⟩
        · cases hch : charSixBit ch with
          | none =>
            left
            simp only [b64encode, List.set_cons_succ, List.set_cons_zero, b64decode,
              charSixBit_sixBitChar, List.isEmpty_nil, if_true, if_neg hq, hch]
          | some w3 =>
            right
            simp only [b64encode, List.set_cons_succ, List.set_cons_zero, b64decode,
              charSixBit_sixBitChar, List.isEmpty_nil, if_true, if_neg hq, hch, if_pos rfl]
            exact ⟨_, rfl, Or.inr (Or.inl rfl)⟩
      · by_cases hq : ch = '='
        · subst hq
          have hset : (b64encode [a]).set 3 '=' = b64encode [a] := rfl
          rw [hset, b64decode_b64encode]
          right
          exact ⟨[a], rfl, Or.inr (Or.inr ⟨rfl, fun q hq hw => rfl⟩)⟩
        · left
          simp only [b64encode, List.set_cons_succ, List.set_cons_zero, b64decode,
            charSixBit_sixBitChar, List.isEmpty_nil, if_true, if_pos rfl, if_neg hq]
    | [a, b] =>
      simp only [b64encode, List.length_cons, List.length_nil] at hi
      have h3ne := (sixBitChar_ne_eq ⟨b.val % 16 * 4, by omega⟩).1
      interval_cases i
      · cases hch : charSixBit ch with
        | none =>
          left
          simp only [b64encode, List.set_cons_zero, b64decode, hch]
        | some w =>
          right
          simp only [b64encode, List.set_cons_zero, b64decode, hch,
            charSixBit_sixBitChar, List.isEmpty_nil, if_true, if_neg h3ne, if_pos rfl]
          exact ⟨_, rfl, Or.inr (Or.inr ⟨rfl, fun q hq hw => absurd hw (by simp only [List.length_cons, List.length_nil] at hq; omega)⟩)⟩
      · cases hch : charSixBit ch with
        | none =>
          left
          simp only [b64encode, List.set_cons_succ, List.set_cons_zero, b64decode,
            charSixBit_sixBitChar, hch]
        | some w =>
          right
          simp only [b64encode, List.set_cons_succ, List.set_cons_zero, b64decode, hch,
            charSixBit_sixBitChar, List.isEmpty_nil, if_true, if_neg h3ne, if_pos rfl]
          exact ⟨_, rfl, Or.inr (Or.inr ⟨rfl, fun q hq hw => absurd hw (by simp only [List.length_cons, List.length_nil] at hq; omega)⟩)⟩
      · by_cases hq : ch = '='
        · subst hq
          right
          simp only [b64encode, List.set_cons_succ, List.set_cons_zero, b64decode,
            charSixBit_sixBitChar, List.isEmpty_nil, if_true, if_pos rfl]
          exact ⟨_, rfl, Or.inl rfl⟩
        · cases hch : charSixBit ch with
          | none =>
            left
            simp only [b64encode, List.set_cons_succ, List.set_cons_zero, b64decode,
              charSixBit_sixBitChar, List.isEmpty_nil, if_true, if_neg hq, hch]
          | some w3 =>
            right
            simp only [b64encode, List.set_cons_succ, List.set_cons_zero, b64decode,
              charSixBit_sixBitChar, List.isEmpty_nil, if_true, if_neg hq, hch, if_pos rfl]
            exact ⟨_, rfl, Or.inr (Or.inr ⟨rfl, fun q hq hw => absurd hw (by simp only [List.length_cons, List.length_nil] at hq; omega)⟩)⟩
      · by_cases hq : ch = '='
        · subst hq
          have hset : (b64encode [a, b]).set 3 '=' = b64encode [a, b] := rfl
          rw [hset, b64decode_b64encode]
          right
          exact ⟨[a, b], rfl, Or.inr (Or.inr ⟨rfl, fun q hq hw => rfl⟩)⟩
        · cases hch : charSixBit ch with
          | none =>
            left
            simp only [b64encode, List.set_cons_succ, List.set_cons_zero, b64decode,
              charSixBit_sixBitChar, List.isEmpty_nil, if_true, if_neg h3ne, if_neg hq, hch]
          | some w4 =>
            right
            simp only [b64encode, List.set_cons_succ, List.set_cons_zero, b64decode,
              charSixBit_sixBitChar, List.isEmpty_nil, if_true, if_neg h3ne, if_neg hq, hch]
            exact ⟨_, rfl, Or.inr (Or.inl rfl)⟩
    | a :: b :: c :: rest =>
      cases rest with
      | nil =>
        have hi4 : i < 4 := by
          simpa [b64encode] using hi
        have h3ne := (sixBitChar_ne_eq ⟨b.val % 16 * 4 + c.val / 64, by omega⟩).1
        have h4ne := (sixBitChar_ne_eq ⟨c.val % 64, by omega⟩).1
        interval_cases i
        · cases hch : charSixBit ch with
          | none =>
            left
            simp only [b64encode, List.cons_append, List.nil_append, List.append_eq, List.append_nil,
              (show charSixBit ('=') = none from rfl), List.set_cons_zero,
              b64decode, hch]
          | some w =>
            right
            simp only [b64encode, List.cons_append, List.nil_append, List.append_eq, List.append_nil,
              (show charSixBit ('=') = none from rfl), List.set_cons_zero,
              b64decode, hch, charSixBit_sixBitChar, List.isEmpty_nil, if_true,
              if_neg h3ne, if_neg h4ne]
            exact ⟨_, rfl, Or.inr (Or.inr ⟨rfl,
              fun q hq hw => absurd hw (by simp only [List.length_cons, List.length_nil] at hq; omega)⟩)⟩
        · cases hch : charSixBit ch with
          | none =>
            left
            simp only [b64encode, List.cons_append, List.nil_append, List.append_eq, List.append_nil,
              (show charSixBit ('=') = none from rfl), List.set_cons_succ,
              List.set_cons_zero, b64decode, charSixBit_sixBitChar, hch]
          | some w =>
            right
            simp only [b64encode, List.cons_append, List.nil_append, List.append_eq, List.append_nil,
              (show charSixBit ('=') = none from rfl), List.set_cons_succ,
              List.set_cons_zero, b64decode, hch, charSixBit_sixBitChar, List.isEmpty_nil,
              if_true, if_neg h3ne, if_neg h4ne]
            exact ⟨_, rfl, Or.inr (Or.inr ⟨rfl,
              fun q hq hw => absurd hw (by simp only [List.length_cons, List.length_nil] at hq; omega)⟩)⟩
        · by_cases hq : ch = '='
          · subst hq
            left
            simp only [b64encode, List.cons_append, List.nil_append, List.append_eq, List.append_nil,
              (show charSixBit ('=') = none from rfl), List.set_cons_succ,
              List.set_cons_zero, b64decode, charSixBit_sixBitChar, List.isEmpty_nil,
              if_true, if_pos rfl, if_neg h4ne]
          · cases hch : charSixBit ch with
            | none =>
              left
              simp only [b64encode, List.cons_append, List.nil_append, List.append_eq, List.append_nil,
              (show charSixBit ('=') = none from rfl), List.set_cons_succ,
                List.set_cons_zero, b64decode, charSixBit_sixBitChar, List.isEmpty_nil,
                if_true, if_neg hq, hch]
            | some w3 =>
              right
              simp only [b64encode, List.cons_append, List.nil_append, List.append_eq, List.append_nil,
              (show charSixBit ('=') = none from rfl), List.set_cons_succ,
                List.set_cons_zero, b64decode, charSixBit_sixBitChar, List.isEmpty_nil,
                if_true, if_neg hq, hch, if_neg h4ne]
              exact ⟨_, rfl, Or.inr (Or.inr ⟨rfl,
                fun q hq hw => absurd hw (by simp only [List.length_cons, List.length_nil] at hq; omega)⟩)⟩
        · by_cases hq : ch = '='
          · subst hq
            right
            simp only [b64encode, List.cons_append, List.nil_append, List.append_eq, List.append_nil,
              (show charSixBit ('=') = none from rfl), List.set_cons_succ,
              List.set_cons_zero, b64decode, charSixBit_sixBitChar, List.isEmpty_nil,
              if_true, if_neg h3ne, if_pos rfl]
            exact ⟨_, rfl, Or.inl rfl⟩
          · cases hch : charSixBit ch with
            | none =>
              left
              simp only [b64encode, List.cons_append, List.nil_append, List.append_eq, List.append_nil,
              (show charSixBit ('=') = none from rfl), List.set_cons_succ,
                List.set_cons_zero, b64decode, charSixBit_sixBitChar, List.isEmpty_nil,
                if_true, if_neg h3ne, if_neg hq, hch]
            | some w4 =>
              right
              simp only [b64encode, List.cons_append, List.nil_append, List.append_eq, List.append_nil,
              (show charSixBit ('=') = none from rfl), List.set_cons_succ,
                List.set_cons_zero, b64decode, charSixBit_sixBitChar, List.isEmpty_nil,
                if_true, if_neg h3ne, if_neg hq, hch]
              exact ⟨_, rfl, Or.inr (Or.inr ⟨rfl,
                fun q hq hw => absurd hw (by simp only [List.length_cons, List.length_nil] at hq; omega)⟩)⟩
      | cons x xs =>
        have hner : b64encode (x :: xs) ≠ [] := by
          rw [ne_eq, b64encode_eq_nil_iff]
          simp
        have ha : byteA ⟨a.val / 4, by omega⟩ ⟨a.val % 4 * 16 + b.val / 16, by omega⟩ = a := by
          apply Fin.ext; simp only [byteA]; omega
        have hb : byteB ⟨a.val % 4 * 16 + b.val / 16, by omega⟩
            ⟨b.val % 16 * 4 + c.val / 64, by omega⟩ = b := by
          apply Fin.ext; simp only [byteB]; omega
        have hc : byteC ⟨b.val % 16 * 4 + c.val / 64, by omega⟩ ⟨c.val % 64, by omega⟩ = c := by
          apply Fin.ext; simp only [byteC]; omega
        have hilen : i < 4 + (b64encode (x :: xs)).length := by
          simp only [b64encode, List.cons_append, List.length_append, List.length_cons,
            List.length_nil] at hi
          omega
        by_cases hi4 : i < 4
        · have hempty2 : (b64encode (x :: xs)).isEmpty = false := by
            cases hh : b64encode (x :: xs) with
            | nil => exact absurd hh hner
            | cons y ys => rfl
          have hrt := b64decode_b64encode (x :: xs)
          have hsetl : ∀ ch' : Char, ∀ hlt : i < 4,
              (b64encode (a :: b :: c :: x :: xs)).set i ch'
              = ([sixBitChar ⟨a.val / 4, by omega⟩,
                  sixBitChar ⟨a.val % 4 * 16 + b.val / 16, by omega⟩,
                  sixBitChar ⟨b.val % 16 * 4 + c.val / 64, by omega⟩,
                  sixBitChar ⟨c.val % 64, by omega⟩].set i ch') ++ b64encode (x :: xs) := by
            intro ch' hlt
            exact List.set_append_left i ch' (by simp only [List.length_cons, List.length_nil]; omega)
          rw [hsetl ch hi4]
          interval_cases i
          · cases hch : charSixBit ch with
            | none =>
              left
              simp only [List.set_cons_zero, List.cons_append, List.append_eq, List.nil_append,
                b64decode, hch]
            | some w =>
              right
              simp only [List.set_cons_zero, List.cons_append, List.append_eq, List.nil_append,
                b64decode, hch, charSixBit_sixBitChar, hempty2, Bool.false_eq_true,
                if_false, hrt]
              rw [hb, hc]
              refine ⟨_, rfl, Or.inr (Or.inr ⟨by simp, ?_⟩)⟩
              intro q hq hw
              rcases hw with hw | hw
              · omega
              · obtain ⟨q', rfl⟩ : ∃ q', q = q' + 3 := ⟨q - 3, by omega⟩
                rfl
          · cases hch : charSixBit ch with
            | none =>
              left
              simp only [List.set_cons_succ, List.set_cons_zero, List.cons_append,
                List.append_eq, List.nil_append, b64decode, charSixBit_sixBitChar,
                hempty2, Bool.false_eq_true, if_false, hch]
            | some w =>
              right
              simp only [List.set_cons_succ, List.set_cons_zero, List.cons_append,
                List.append_eq, List.nil_append, b64decode, hch, charSixBit_sixBitChar, hempty2,
                Bool.false_eq_true, if_false, hrt]
              rw [hc]
              refine ⟨_, rfl, Or.inr (Or.inr ⟨by simp, ?_⟩)⟩
              intro q hq hw
              rcases hw with hw | hw
              · omega
              · obtain ⟨q', rfl⟩ : ∃ q', q = q' + 3 := ⟨q - 3, by omega⟩
                rfl
          · cases hch : charSixBit ch with
            | none =>
              left
              simp only [List.set_cons_succ, List.set_cons_zero, List.cons_append,
                List.append_eq, List.nil_append, b64decode, charSixBit_sixBitChar,
                hempty2, Bool.false_eq_true, if_false, hch]
            | some w =>
              right
              simp only [List.set_cons_succ, List.set_cons_zero, List.cons_append,
                List.append_eq, List.nil_append, b64decode, hch, charSixBit_sixBitChar, hempty2,
                Bool.false_eq_true, if_false, hrt]
              rw [ha]
              refine ⟨_, rfl, Or.inr (Or.inr ⟨by simp, ?_⟩)⟩
              intro q hq hw
              rcases hw with hw | hw
              · omega
              · obtain ⟨q', rfl⟩ : ∃ q', q = q' + 3 := ⟨q - 3, by omega⟩
                rfl
          · cases hch : charSixBit ch with
            | none =>
              left
              simp only [List.set_cons_succ, List.set_cons_zero, List.cons_append,
                List.append_eq, List.nil_append, b64decode, charSixBit_sixBitChar,
                hempty2, Bool.false_eq_true, if_false, hch]
            | some w =>
              right
              simp only [List.set_cons_succ, List.set_cons_zero, List.cons_append,
                List.append_eq, List.nil_append, b64decode, hch, charSixBit_sixBitChar, hempty2,
                Bool.false_eq_true, if_false, hrt]
              rw [ha, hb]
              refine ⟨_, rfl, Or.inr (Or.inr ⟨by simp, ?_⟩)⟩
              intro q hq hw
              rcases hw with hw | hw
              · omega
              · obtain ⟨q', rfl⟩ : ∃ q', q = q' + 3 := ⟨q - 3, by omega⟩
                rfl
        · push_neg at hi4
          have hsetr : (b64encode (a :: b :: c :: x :: xs)).set i ch
              = [sixBitChar ⟨a.val / 4, by omega⟩,
                  sixBitChar ⟨a.val % 4 * 16 + b.val / 16, by omega⟩,
                  sixBitChar ⟨b.val % 16 * 4 + c.val / 64, by omega⟩,
                  sixBitChar ⟨c.val % 64, by omega⟩]
                ++ (b64encode (x :: xs)).set (i - 4) ch := by
            rw [show b64encode (a :: b :: c :: x :: xs)
                = [sixBitChar ⟨a.val / 4, by omega⟩,
                   sixBitChar ⟨a.val % 4 * 16 + b.val / 16, by omega⟩,
                   sixBitChar ⟨b.val % 16 * 4 + c.val / 64, by omega⟩,
                   sixBitChar ⟨c.val % 64, by omega⟩] ++ b64encode (x :: xs) from rfl]
            exact set_append_four _ _ _ _ _ i ch hi4
          have hi' : i - 4 < (b64encode (x :: xs)).length := by omega
          have hIH := ih (x :: xs) (by simp only [List.length_cons] at h ⊢; omega) (i - 4) ch hi'
          have hlenset : ((b64encode (x :: xs)).set (i - 4) ch).length
              = (b64encode (x :: xs)).length := List.length_set _ _ _
          have hconsset : (((b64encode (x :: xs)).set (i - 4) ch)).isEmpty = false := by
            cases hsr : (b64encode (x :: xs)).set (i - 4) ch with
            | nil =>
              exfalso
              have h0 : (b64encode (x :: xs)).length = 0 := by
                rw [← hlenset, hsr]
                rfl
              cases hh : b64encode (x :: xs) with
              | nil => exact absurd hh hner
              | cons y ys => rw [hh] at h0; simp at h0
            | cons y ys => rfl
          rw [hsetr]
          rcases hIH with hnone | ⟨t'', hdec, hcase⟩
          · left
            simp only [List.cons_append, List.append_eq, List.nil_append, b64decode,
              charSixBit_sixBitChar, hconsset, Bool.false_eq_true, if_false, hnone]
          · right
            simp only [List.cons_append, List.append_eq, List.nil_append, b64decode,
              charSixBit_sixBitChar, hconsset, Bool.false_eq_true, if_false, hdec]
            rw [ha, hb, hc]
            refine ⟨a :: b :: c :: t'', rfl, ?_⟩
            have hdiv : i / 4 = (i - 4) / 4 + 1 := by omega
            rcases hcase with hl | hl | ⟨hl, hwin⟩
            · exact Or.inl (by simp only [List.length_cons] at hl ⊢; omega)
            · exact Or.inr (Or.inl (by simp only [List.length_cons] at hl ⊢; omega))
            · refine Or.inr (Or.inr ⟨by simp only [List.length_cons] at hl ⊢; omega, ?_⟩)
              intro q hq hw
              by_cases hq3 : q < 3
              · interval_cases q <;> rfl
              · obtain ⟨q', rfl⟩ : ∃ q', q = q' + 3 := ⟨q - 3, by omega⟩
                have e1 : (a :: b :: c :: t'').getD (q' + 3) 0 = t''.getD q' 0 := rfl
                have e2 : (a :: b :: c :: x :: xs).getD (q' + 3) 0 = (x :: xs).getD q' 0 := rfl
                rw [e1, e2]
                apply hwin q'
                · simp only [List.length_cons] at hq ⊢
                  omega
                · rcases hw with hw | hw
                  · left; omega
                  · right; omega

/-- The `ciphertext_b64` field value of an envelope of `encrypt_file`. -/
def ctChars (password file_bytes saltR nonceR : Bytes) : Chars :=
  b64encode (fernetSeal (scryptDerive password saltR 32 (2 ^ 17) 8 1) nonceR file_bytes)

/-- The first five fields of the envelope. -/
def envFive (saltR : Bytes) : JObj :=
  [(saltKey, .jstr (b64encode saltR)),
   (lengthKey, .jnum 32),
   (nKey, .jnum (2 ^ 17)),
   (rKey, .jnum 8),
   (pKey, .jnum 1)]

/-- The serialized envelope text up to and including the opening quote
of the `ciphertext_b64` value. -/
def envFront (saltR : Bytes) : Chars :=
  '{' :: dumpPairs (envFive saltR) ++ ',' :: ' ' :: '"' :: ctKey ++ ['"', ':', ' ', '"']

theorem dumps_ct_decomp (saltR : Bytes) (v : Chars) :
    jsonDumps (envObjGen (b64encode saltR) 32 (2 ^ 17) 8 1 v)
      = envFront saltR ++ v ++ ['"', '}'] := by
  simp [jsonDumps, envObjGen, envFive, envFront, dumpPairs, dumpPair, dumpJVal,
    List.append_assoc, List.cons_append]

theorem encrypt_decomp (password file_bytes saltR nonceR : Bytes) :
    encrypt_file password file_bytes saltR nonceR
      = envFront saltR ++ ctChars password file_bytes saltR nonceR ++ ['"', '}'] := by
  rw [encrypt_file_def]
  exact dumps_ct_decomp saltR (ctChars password file_bytes saltR nonceR)

/-- Flip bit `j` of a character's code point. -/
def flipBitChar (c : Char) (j : Nat) : Char := Char.ofNat (c.toNat ^^^ (1 <<< j))

/-- Flip bit `j` of the character at index `i`. -/
def flipAt (s : Chars) (i j : Nat) : Chars := s.set i (flipBitChar (s.getD i ' ') j)

theorem encTok_length_ge (k : DKey) (nonce pt : Bytes) : 3 ≤ (encTok k nonce pt).length := by
  simp only [encTok, encBytes, encNat, List.length_append, List.length_cons,
    List.length_nil]
  omega

theorem fernetOpen_modified (k : DKey) (nonce pt : Bytes) (t' : Bytes)
    (hcase : t'.length + 1 = (fernetSeal k nonce pt).length
           ∨ (fernetSeal k nonce pt).length + 1 = t'.length
           ∨ (t'.length = (fernetSeal k nonce pt).length
              ∧ ∃ d, ∀ q, q < (fernetSeal k nonce pt).length →
                  (q < d ∨ d + 2 < q) → t'.getD q 0 = (fernetSeal k nonce pt).getD q 0)) :
    fernetOpen k t' = .error .authenticationError ∨ fernetOpen k t' = .ok pt := by
  have hB : 3 ≤ (encTok k nonce pt).length := encTok_length_ge k nonce pt
  have hlen : (fernetSeal k nonce pt).length = 2 * (encTok k nonce pt).length := by
    simp only [fernetSeal, List.length_append]
    omega
  rcases hcase with hl | hl | ⟨hl, d, hwin⟩
  · left
    unfold fernetOpen
    rw [if_pos (by omega)]
  · left
    unfold fernetOpen
    rw [if_pos (by omega)]
  · by_cases heq : t'.take (t'.length / 2) = t'.drop (t'.length / 2)
    · right
      have ht' : t' = encTok k nonce pt ++ encTok k nonce pt := by
        apply halves_window (encTok k nonce pt) t' d hB (by omega)
        · intro q hq hw
          exact hwin q (by omega) hw
        · have hh : t'.length / 2 = (encTok k nonce pt).length := by omega
          rwa [hh] at heq
      rw [ht']
      have hfs : fernetOpen k (encTok k nonce pt ++ encTok k nonce pt)
          = if k = k then Except.ok pt else Except.error DecryptError.authenticationError :=
        fernetOpen_fernetSeal k k nonce pt
      rw [hfs, if_pos rfl]
    · left
      unfold fernetOpen
      rw [if_neg (by omega)]
      simp only [if_neg heq]

theorem decryptJson_gen_ct (pw saltR : Bytes) (ct' : Chars) (bs : Bytes)
    (hdec : b64decode ct' = some bs) :
    decryptJson pw (envObjGen (b64encode saltR) 32 (2 ^ 17) 8 1 ct')
      = fernetOpen (scryptDerive pw saltR 32 (2 ^ 17) 8 1) bs := by
  have hkey := envelopeKey_envObjGen pw (b64encode saltR) 32 (2 ^ 17) 8 1 ct' saltR
    (b64decode_b64encode saltR)
  rw [scryptCheck_defaults] at hkey
  simp only [if_true] at hkey
  have hct : getField (envObjGen (b64encode saltR) 32 (2 ^ 17) 8 1 ct') ctKey
      = some (.jstr ct') := rfl
  simp only [decryptJson, hkey, hct, hdec, scryptDerive]
  simp

theorem decryptJson_gen_ct_none (pw saltR : Bytes) (ct' : Chars)
    (hdec : b64decode ct' = none) :
    decryptJson pw (envObjGen (b64encode saltR) 32 (2 ^ 17) 8 1 ct')
      = .error .formatError := by
  have hkey := envelopeKey_envObjGen pw (b64encode saltR) 32 (2 ^ 17) 8 1 ct' saltR
    (b64decode_b64encode saltR)
  rw [scryptCheck_defaults] at hkey
  simp only [if_true] at hkey
  have hct : getField (envObjGen (b64encode saltR) 32 (2 ^ 17) 8 1 ct') ctKey
      = some (.jstr ct') := rfl
  simp only [decryptJson, hkey, hct, hdec]

theorem parsePairs_cons_step (f : Nat) (k : Chars) (v : JVal) (tail : Chars)
    (hk : wfStr k) (hv : wfVal v) :
    parsePairs (f + 1) (dumpPair k v ++ ',' :: ' ' :: tail)
      = match parsePairs f tail with
        | some (o, r) => some ((k, v) :: o, r)
        | none => none := by
  have hval := parseJVal_dump v hv (',' :: ' ' :: tail) (by
    intro c hc
    simp only [List.head?_cons, Option.some.injEq] at hc
    subst hc; decide)
  simp only [dumpPair, List.cons_append, List.nil_append, List.append_assoc,
    parsePairs, if_pos rfl, parseStringBody_ok k _ hk, hval]
  cases hp : parsePairs f tail with
  | none => simp
  | some pr => simp

theorem parsePairs_through :
    ∀ (l : JObj) (fuel : Nat) (tail : Chars), l ≠ [] → wfObj l →
      parsePairs (fuel + l.length) (dumpPairs l ++ ',' :: ' ' :: tail)
        = match parsePairs fuel tail with
          | some (o, r) => some (l ++ o, r)
          | none => none := by
  intro l
  induction l with
  | nil => intro fuel tail h; exact absurd rfl h
  | cons kv rest ih =>
    intro fuel tail _ hwf
    obtain ⟨k, v⟩ := kv
    have hk : wfStr k := (hwf (k, v) (List.mem_cons_self _ _)).1
    have hv : wfVal v := (hwf (k, v) (List.mem_cons_self _ _)).2
    cases rest with
    | nil =>
      show parsePairs (fuel + 1) (dumpPair k v ++ ',' :: ' ' :: tail) = _
      rw [parsePairs_cons_step fuel k v tail hk hv]
      cases hp : parsePairs fuel tail with
      | none => rfl
      | some pr => rfl
    | cons p t =>
      have hwf' : wfObj (p :: t) := fun kv hkv => hwf kv (List.mem_cons_of_mem _ hkv)
      have ihr := ih fuel tail (by simp) hwf'
      have hshape : dumpPairs ((k, v) :: p :: t) ++ ',' :: ' ' :: tail
          = dumpPair k v ++ ',' :: ' ' :: (dumpPairs (p :: t) ++ ',' :: ' ' :: tail) := by
        simp only [dumpPairs, List.cons_append, List.append_assoc]
      have hfuel : fuel + ((k, v) :: p :: t).length = (fuel + (p :: t).length) + 1 := by
        simp only [List.length_cons]
        omega
      rw [hshape, hfuel, parsePairs_cons_step (fuel + (p :: t).length) k v _ hk hv, ihr]
      cases hp : parsePairs fuel tail with
      | none => rfl
      | some pr => rfl

theorem parsePairs_ct_quote (u v : Chars) (fuel : Nat) (hu : wfStr u)
    (hv : ∀ c ∈ v, (charSixBit c).isSome = true ∨ c = '=') :
    parsePairs fuel
      ('"' :: (ctKey ++ '"' :: ':' :: ' ' :: ('"' :: (u ++ '"' :: (v ++ ['"', '}'])))))
      = none := by
  cases fuel with
  | zero => rfl
  | succ f =>
    simp only [parsePairs, if_pos rfl,
      parseStringBody_ok ctKey _ (show wfStr ctKey by decide),
      parseJVal, parseStringBody_ok u _ hu]
    cases v with
    | nil => simp
    | cons c0 v' =>
      have hc0 := hv c0 (List.mem_cons_self _ _)
      have hne1 : ¬ c0 = '}' := by
        rcases hc0 with hh | hh
        · exact (charSixBit_isSome_facts c0 hh).2.2.1
        · subst hh; decide
      have hne2 : ¬ c0 = ',' := by
        rcases hc0 with hh | hh
        · exact (charSixBit_isSome_facts c0 hh).2.1
        · subst hh; decide
      simp only [List.cons_append, if_true, if_neg hne1, if_neg hne2]

theorem parsePairs_ct_backslash (u w : Chars) (fuel : Nat) (hu : wfStr u) :
    parsePairs fuel ('"' :: (ctKey ++ '"' :: ':' :: ' ' :: ('"' :: (u ++ '\\' :: w))))
      = none := by
  cases fuel with
  | zero => rfl
  | succ f =>
    have hsb : parseStringBody (u ++ '\\' :: w) = none := by
      have htw := takeWhile_dropWhile_append strOkChar u ('\\' :: w) hu (by
        intro c hc
        simp only [List.head?_cons, Option.some.injEq] at hc
        subst hc; decide)
      simp only [parseStringBody, htw.2]
      rfl
    simp only [parsePairs, if_pos rfl, if_true,
      parseStringBody_ok ctKey _ (show wfStr ctKey by decide),
      parseJVal, hsb]

theorem wf_envFive (saltR : Bytes) : wfObj (envFive saltR) := by
  intro kv hkv
  simp only [envFive, List.mem_cons, List.not_mem_nil, or_false] at hkv
  rcases hkv with h | h | h | h | h
  · subst h; exact ⟨show wfStr saltKey by decide, b64encode_wfStr saltR⟩
  · subst h; exact ⟨show wfStr lengthKey by decide, trivial⟩
  · subst h; exact ⟨show wfStr nKey by decide, trivial⟩
  · subst h; exact ⟨show wfStr rKey by decide, trivial⟩
  · subst h; exact ⟨show wfStr pKey by decide, trivial⟩

theorem jsonLoads_ct_bad (saltR : Bytes) (T : Chars)
    (htail : ∀ fuel, parsePairs fuel ('"' :: (ctKey ++ '"' :: ':' :: ' ' :: T)) = none) :
    jsonLoads ('{' :: (dumpPairs (envFive saltR) ++ ',' :: ' ' ::
      ('"' :: (ctKey ++ '"' :: ':' :: ' ' :: T)))) = none := by
  obtain ⟨t0, ht0⟩ := dumpPairs_cons_head (saltKey, JVal.jstr (b64encode saltR))
    [(lengthKey, JVal.jnum 32), (nKey, JVal.jnum (2 ^ 17)),
     (rKey, JVal.jnum 8), (pKey, JVal.jnum 1)]
  have hhead : dumpPairs (envFive saltR) = '"' :: t0 := ht0
  have h5 : 5 ≤ (dumpPairs (envFive saltR)).length := by
    have h := length_le_dumpPairs (envFive saltR)
    simpa [envFive] using h
  have hne5 : envFive saltR ≠ [] := by simp [envFive]
  have hthr := parsePairs_through (envFive saltR)
    ((dumpPairs (envFive saltR) ++ ',' :: ' ' ::
       ('"' :: (ctKey ++ '"' :: ':' :: ' ' :: T))).length - 5)
    ('"' :: (ctKey ++ '"' :: ':' :: ' ' :: T)) hne5 (wf_envFive saltR)
  rw [htail _] at hthr
  have hfive : (envFive saltR).length = 5 := rfl
  have hfuel : (dumpPairs (envFive saltR) ++ ',' :: ' ' ::
        ('"' :: (ctKey ++ '"' :: ':' :: ' ' :: T))).length - 5 + (envFive saltR).length
      = (dumpPairs (envFive saltR) ++ ',' :: ' ' ::
        ('"' :: (ctKey ++ '"' :: ':' :: ' ' :: T))).length := by
    rw [hfive]
    simp only [List.length_append, List.length_cons]
    omega
  have hthr2 : parsePairs
      ((dumpPairs (envFive saltR) ++ ',' :: ' ' ::
        ('"' :: (ctKey ++ '"' :: ':' :: ' ' :: T))).length)
      (dumpPairs (envFive saltR) ++ ',' :: ' ' ::
        ('"' :: (ctKey ++ '"' :: ':' :: ' ' :: T))) = none := by
    rw [← hfuel]
    exact hthr
  have hne : ¬ (dumpPairs (envFive saltR) ++ ',' :: ' ' ::
      ('"' :: (ctKey ++ '"' :: ':' :: ' ' :: T)) = ['}']) := by
    rw [hhead]
    simp
  rw [show jsonLoads ('{' :: (dumpPairs (envFive saltR) ++ ',' :: ' ' ::
        ('"' :: (ctKey ++ '"' :: ':' :: ' ' :: T))))
      = (if dumpPairs (envFive saltR) ++ ',' :: ' ' ::
            ('"' :: (ctKey ++ '"' :: ':' :: ' ' :: T)) = ['}'] then some []
         else match parsePairs
              ((dumpPairs (envFive saltR) ++ ',' :: ' ' ::
                ('"' :: (ctKey ++ '"' :: ':' :: ' ' :: T))).length)
              (dumpPairs (envFive saltR) ++ ',' :: ' ' ::
                ('"' :: (ctKey ++ '"' :: ':' :: ' ' :: T))) with
              | some (obj, []) => some obj
              | _ => none) from rfl]
  rw [if_neg hne, hthr2]

theorem jsonLoads_ct_quote_full (saltR : Bytes) (u v : Chars) (hu : wfStr u)
    (hv : ∀ c ∈ v, (charSixBit c).isSome = true ∨ c = '=') :
    jsonLoads (envFront saltR ++ (u ++ '"' :: v) ++ ['"', '}']) = none := by
  have hsh : envFront saltR ++ (u ++ '"' :: v) ++ ['"', '}']
      = '{' :: (dumpPairs (envFive saltR) ++ ',' :: ' ' ::
        ('"' :: (ctKey ++ '"' :: ':' :: ' ' ::
          ('"' :: (u ++ '"' :: (v ++ ['"', '}'])))))) := by
    simp [envFront, List.append_assoc, List.cons_append]
  rw [hsh]
  exact jsonLoads_ct_bad saltR ('"' :: (u ++ '"' :: (v ++ ['"', '}'])))
    (fun fuel => parsePairs_ct_quote u v fuel hu hv)

theorem jsonLoads_ct_backslash_full (saltR : Bytes) (u v : Chars) (hu : wfStr u) :
    jsonLoads (envFront saltR ++ (u ++ '\\' :: v) ++ ['"', '}']) = none := by
  have hsh : envFront saltR ++ (u ++ '\\' :: v) ++ ['"', '}']
      = '{' :: (dumpPairs (envFive saltR) ++ ',' :: ' ' ::
        ('"' :: (ctKey ++ '"' :: ':' :: ' ' ::
          ('"' :: (u ++ '\\' :: (v ++ ['"', '}'])))))) := by
    simp [envFront, List.append_assoc, List.cons_append]
  rw [hsh]
  exact jsonLoads_ct_bad saltR ('"' :: (u ++ '\\' :: (v ++ ['"', '}'])))
    (fun fuel => parsePairs_ct_backslash u (v ++ ['"', '}']) fuel hu)

theorem jsonLoads_ct_good (saltR : Bytes) (ct' : Chars) (hct : wfStr ct') :
    jsonLoads (envFront saltR ++ ct' ++ ['"', '}'])
      = some (envObjGen (b64encode saltR) 32 (2 ^ 17) 8 1 ct') := by
  rw [← dumps_ct_decomp saltR ct']
  exact jsonLoads_jsonDumps _ (wf_envObjGen (b64encode saltR) 32 (2 ^ 17) 8 1 ct'
    (b64encode_wfStr saltR) hct)

/-- C3 (amended): flipping one bit of a character inside the
`ciphertext_b64` field of an envelope produced by `encrypt_file` makes
`decrypt_file` raise a `FormatError` (the flipped character breaks the
JSON string or the base64 decode), raise an `AuthenticationError` (the
Fernet integrity check fails), or — contrary to the specification's
claim that it always raises `AuthenticationError` — return the original
plaintext unchanged when the flip lands on a bit the base64 decoder
ignores; altered plaintext is never returned. -/
theorem c3_tamper_detection (password file_bytes saltR nonceR : Bytes) (i j : Nat)
    (hlo : (envFront saltR).length ≤ i)
    (hhi : i < (envFront saltR).length
      + (ctChars password file_bytes saltR nonceR).length) :
    decrypt_file password (flipAt (encrypt_file password file_bytes saltR nonceR) i j)
        = .error .formatError
    ∨ decrypt_file password (flipAt (encrypt_file password file_bytes saltR nonceR) i j)
        = .error .authenticationError
    ∨ decrypt_file password (flipAt (encrypt_file password file_bytes saltR nonceR) i j)
        = .ok file_bytes := by
  have hE := encrypt_decomp password file_bytes saltR nonceR
  have hd : i - (envFront saltR).length
      < (ctChars password file_bytes saltR nonceR).length := by omega
  simp only [flipAt]
  generalize flipBitChar
    ((encrypt_file password file_bytes saltR nonceR).getD i ' ') j = c
  rw [hE, List.set_append_left i c (by simp only [List.length_append]; omega),
    List.set_append_right i c hlo]
  have hwfCT : wfStr (ctChars password file_bytes saltR nonceR) := b64encode_wfStr _
  by_cases hq : c = '"'
  · subst hq
    left
    rw [List.set_eq_take_cons_drop '"' hd]
    have hu : wfStr ((ctChars password file_bytes saltR nonceR).take
        (i - (envFront saltR).length)) :=
      fun ch hch => hwfCT ch (List.mem_of_mem_take hch)
    have hv : ∀ ch ∈ (ctChars password file_bytes saltR nonceR).drop
        (i - (envFront saltR).length + 1),
        (charSixBit ch).isSome = true ∨ ch = '=' :=
      fun ch hch => b64encode_mem _ ch (List.mem_of_mem_drop hch)
    have hjl := jsonLoads_ct_quote_full saltR _ _ hu hv
    simp only [decrypt_file, hjl]
  · by_cases hq2 : c = '\\'
    · subst hq2
      left
      rw [List.set_eq_take_cons_drop '\\' hd]
      have hu : wfStr ((ctChars password file_bytes saltR nonceR).take
          (i - (envFront saltR).length)) :=
        fun ch hch => hwfCT ch (List.mem_of_mem_take hch)
      have hjl := jsonLoads_ct_backslash_full saltR _
        ((ctChars password file_bytes saltR nonceR).drop
          (i - (envFront saltR).length + 1)) hu
      simp only [decrypt_file, hjl]
    · have hcok : strOkChar c = true := by
        simp only [strOkChar, Bool.and_eq_true, decide_eq_true_eq]
        exact ⟨hq, hq2⟩
      have hwf' : wfStr ((ctChars password file_bytes saltR nonceR).set
          (i - (envFront saltR).length) c) := by
        intro ch hch
        rcases List.mem_or_eq_of_mem_set hch with hm | he
        · exact hwfCT ch hm
        · subst he; exact hcok
      have hjl := jsonLoads_ct_good saltR _ hwf'
      cases hb : b64decode ((ctChars password file_bytes saltR nonceR).set
          (i - (envFront saltR).length) c) with
      | none =>
        left
        have hdj := decryptJson_gen_ct_none password saltR _ hb
        simp only [decrypt_file, hjl, hdj]
      | some bs =>
        have hdj := decryptJson_gen_ct password saltR _ bs hb
        have hd' : i - (envFront saltR).length
            < (b64encode (fernetSeal
                (scryptDerive password saltR 32 (2 ^ 17) 8 1)
                nonceR file_bytes)).length := hd
        have htr := b64decode_set
          (fernetSeal (scryptDerive password saltR 32 (2 ^ 17) 8 1)
            nonceR file_bytes).length
          (fernetSeal (scryptDerive password saltR 32 (2 ^ 17) 8 1)
            nonceR file_bytes)
          (le_refl _) (i - (envFront saltR).length) c hd'
        have hb' : b64decode ((b64encode (fernetSeal
            (scryptDerive password saltR 32 (2 ^ 17) 8 1)
            nonceR file_bytes)).set (i - (envFront saltR).length) c)
            = some bs := hb
        rcases htr with hnone | ⟨t', ht', hcase⟩
        · rw [hnone] at hb'
          exact Option.noConfusion hb'
        · rw [ht'] at hb'
          have hbs : t' = bs := Option.some.inj hb'
          subst hbs
          have hfm := fernetOpen_modified
            (scryptDerive password saltR 32 (2 ^ 17) 8 1) nonceR file_bytes t'
            (by
              rcases hcase with h | h | ⟨he, hw⟩
              · exact Or.inl h
              · exact Or.inr (Or.inl h)
              · exact Or.inr (Or.inr
                  ⟨he, 3 * ((i - (envFront saltR).length) / 4),
                    fun q hq hw' => hw q hq hw'⟩))
          rcases hfm with hf | hf
          · right; left
            simp only [decrypt_file, hjl, hdj, hf]
          · right; right
            simp only [decrypt_file, hjl, hdj, hf]

set_option maxRecDepth 100000 in
/-- C3 counterexample to the claim as stated: in the envelope produced
by `encrypt_file` for password `[97]`, empty plaintext, the all-zero
32-byte salt and empty cipher randomness, index 249 lies inside the
`ciphertext_b64` field (it is the last base64 digit of the final
group, whose two low bits are padding the decoder ignores); flipping
bit 0 of that character changes the envelope text, yet `decrypt_file`
returns the original plaintext instead of raising an
`AuthenticationError`. -/
theorem c3_tamper_detection_counterexample :
    flipAt (encrypt_file sampleA [] sampleSalt []) 249 0
        ≠ encrypt_file sampleA [] sampleSalt []
    ∧ (envFront sampleSalt).length ≤ 249
    ∧ 249 < (envFront sampleSalt).length + (ctChars sampleA [] sampleSalt []).length
    ∧ decrypt_file sampleA (flipAt (encrypt_file sampleA [] sampleSalt []) 249 0)
        = .ok []
    ∧ decrypt_file sampleA (flipAt (encrypt_file sampleA [] sampleSalt []) 249 0)
        ≠ .error .authenticationError := by
  have h4 : decrypt_file sampleA (flipAt (encrypt_file sampleA [] sampleSalt []) 249 0)
      = Except.ok [] := rfl
  refine ⟨by decide, by decide, by decide, h4, ?_⟩
  rw [h4]
  intro h
  exact Except.noConfusion h

set_option maxRecDepth 100000 in
/-- Witness for the amended C3 theorem at a concrete input: password
`[98]`, empty plaintext, the all-one 32-byte salt, empty cipher
randomness, flipping bit 0 of the envelope character at index 119
(the first character of the `ciphertext_b64` value). -/
theorem c3_tamper_detection_witness :
    decrypt_file sampleB (flipAt (encrypt_file sampleB [] sampleSalt2 []) 119 0)
        = .error .formatError
    ∨ decrypt_file sampleB (flipAt (encrypt_file sampleB [] sampleSalt2 []) 119 0)
        = .error .authenticationError
    ∨ decrypt_file sampleB (flipAt (encrypt_file sampleB [] sampleSalt2 []) 119 0)
        = .ok [] :=
  c3_tamper_detection sampleB [] sampleSalt2 [] 119 0 (by decide) (by decide)
